import Mathlib

/-!
Verification development for the HDD 1.1 codec and analytics engine
(`src/hdd-core.js`, `src/hdd-api.js`).  JavaScript strings are modelled as
`List Char`, JavaScript values as the inductive `JVal` (numbers are modelled
as exact rationals; floating-point corners such as `Infinity`, `NaN`
payloads and shortest-float printing are outside the embedded fragment and
outside every theorem's scope), and fallible operations return `Option`.
-/

/-- JavaScript strings, modelled as lists of characters. -/
abbrev JStr := List Char

/-- Shorthand to build a `JStr` from a Lean string literal. -/
def cs (s : String) : JStr := s.toList

/-- JavaScript runtime values (the fragment used by the HDD codec):
`null`, `undefined`, booleans, numbers (modelled as exact rationals),
strings, `Date` objects (epoch milliseconds), arrays, and plain objects
(field lists in insertion order). -/
inductive JVal where
  | null
  | undef
  | bool (b : Bool)
  | num (q : ℚ)
  | str (s : JStr)
  | date (ms : Int)
  | arr (elems : List JVal)
  | obj (fields : List (JStr × JVal))

mutual

/-- Boolean structural equality on `JVal` (the nested inductive prevents
a derived instance, so it is spelled out). -/
def jvalBeq : JVal → JVal → Bool
  | .null, .null => true
  | .undef, .undef => true
  | .bool a, .bool b => a == b
  | .num a, .num b => a == b
  | .str a, .str b => a == b
  | .date a, .date b => a == b
  | .arr xs, .arr ys => jvalBeqList xs ys
  | .obj fs, .obj gs => jvalBeqFields fs gs
  | _, _ => false

/-- Pointwise `jvalBeq` on lists of values. -/
def jvalBeqList : List JVal → List JVal → Bool
  | [], [] => true
  | x :: xs, y :: ys => jvalBeq x y && jvalBeqList xs ys
  | _, _ => false

/-- Pointwise `jvalBeq` on field lists. -/
def jvalBeqFields : List (JStr × JVal) → List (JStr × JVal) → Bool
  | [], [] => true
  | (k, v) :: xs, (l, w) :: ys => k == l && jvalBeq v w && jvalBeqFields xs ys
  | _, _ => false

end

mutual

theorem jvalBeq_iff : ∀ a b, jvalBeq a b = true ↔ a = b
  | .null, b => by cases b <;> simp [jvalBeq]
  | .undef, b => by cases b <;> simp [jvalBeq]
  | .bool a, b => by cases b <;> simp [jvalBeq]
  | .num a, b => by cases b <;> simp [jvalBeq]
  | .str a, b => by cases b <;> simp [jvalBeq]
  | .date a, b => by cases b <;> simp [jvalBeq]
  | .arr xs, b => by
    cases b <;> simp [jvalBeq]
    exact jvalBeqList_iff xs _
  | .obj fs, b => by
    cases b <;> simp [jvalBeq]
    exact jvalBeqFields_iff fs _

theorem jvalBeqList_iff : ∀ xs ys, jvalBeqList xs ys = true ↔ xs = ys
  | [], ys => by cases ys <;> simp [jvalBeqList]
  | x :: xs, ys => by
    cases ys with
    | nil => simp [jvalBeqList]
    | cons y ys =>
      simp [jvalBeqList, jvalBeq_iff x y, jvalBeqList_iff xs ys]

theorem jvalBeqFields_iff : ∀ xs ys, jvalBeqFields xs ys = true ↔ xs = ys
  | [], ys => by cases ys <;> simp [jvalBeqFields]
  | (k, v) :: xs, ys => by
    cases ys with
    | nil => simp [jvalBeqFields]
    | cons y ys =>
      obtain ⟨l, w⟩ := y
      simp [jvalBeqFields, jvalBeq_iff v w, jvalBeqFields_iff xs ys,
        Prod.ext_iff]

end

instance : DecidableEq JVal := fun a b =>
  decidable_of_iff _ (jvalBeq_iff a b)

/-- The `SEPARATOR` constant of `hdd-core.js`. -/
def SEPARATOR : JStr := [':', ':']

/-- The `CURRENT_VERSION` constant of `hdd-core.js`. -/
def CURRENT_VERSION : JStr := ['1', '.', '1']

/-- Model of `s.replace(/::/g, '\\:')` — replaces every non-overlapping
occurrence of the two-character delimiter `::` (scanning left to right)
with the two-character escape token `\:`. -/
def escColons : JStr → JStr
  | [] => []
  | ':' :: ':' :: rest => '\\' :: ':' :: escColons rest
  | c :: rest => c :: escColons rest

/-- Model of `s.replace(/\\:/g, '::')` — replaces every non-overlapping
occurrence of the escape token `\:` with the delimiter `::`. -/
def unescColons : JStr → JStr
  | [] => []
  | '\\' :: ':' :: rest => ':' :: ':' :: unescColons rest
  | c :: rest => c :: unescColons rest

/-- Prepend a character to the first part of a split result. -/
def consHead (c : Char) : List JStr → List JStr
  | [] => [[c]]
  | p :: ps => (c :: p) :: ps

/-- Model of `s.split('::')` — JavaScript `String.prototype.split` with a
two-character separator: non-overlapping left-to-right scan. -/
def splitCols : JStr → List JStr
  | [] => [[]]
  | ':' :: ':' :: rest => [] :: splitCols rest
  | c :: rest => consHead c (splitCols rest)

/-- Model of `parts.join('::')`. -/
def joinCols : List JStr → JStr
  | [] => []
  | [p] => p
  | p :: ps => p ++ ':' :: ':' :: joinCols ps

/-- A string contains no occurrence of the delimiter `::`
(no two adjacent colons). -/
def noSep : JStr → Bool
  | ':' :: ':' :: _ => false
  | _ :: rest => noSep rest
  | [] => true

/-- A string contains no occurrence of `:::`. -/
def noTriple : JStr → Bool
  | ':' :: ':' :: ':' :: _ => false
  | _ :: rest => noTriple rest
  | [] => true

/-- The last character of the string is a colon. -/
def endsColon : JStr → Bool
  | [] => false
  | [c] => c == ':'
  | _ :: rest => endsColon rest

/-- Field texts that survive the escape/join/split/unescape pipeline:
no backslash, no `:::` run, and not ending in a colon. -/
def safeField (s : JStr) : Prop :=
  '\\' ∉ s ∧ noTriple s = true ∧ endsColon s = false

instance (s : JStr) : Decidable (safeField s) := by
  unfold safeField; infer_instance

/-- Plain fields: no colon and no backslash at all (these are untouched by
escaping and are trivially split-safe). -/
def plainField (s : JStr) : Prop := ':' ∉ s ∧ '\\' ∉ s

instance (s : JStr) : Decidable (plainField s) := by
  unfold plainField; infer_instance

theorem splitCols_ne_nil (s : JStr) : splitCols s ≠ [] := by
  induction s using splitCols.induct with
  | case1 => simp [splitCols]
  | case2 rest ih => simp [splitCols]
  | case3 c rest h ih =>
    rw [splitCols.eq_3 c rest h]
    cases hs : splitCols rest with
    | nil => exact absurd hs ih
    | cons p ps => simp [consHead]

theorem noSep_cons {c : Char} {rest : JStr} (h : noSep (c :: rest) = true) :
    noSep rest = true := by
  cases rest with
  | nil => rfl
  | cons d r =>
    by_cases hc : c = ':' <;> by_cases hd : d = ':' <;>
      simp_all [noSep]

/-- The first character of the string is a colon. -/
def startsColon : JStr → Bool
  | [] => false
  | c :: _ => c == ':'

theorem noSep_singleton (c : Char) : noSep [c] = true := by
  rw [noSep.eq_2 c [] (by intro r _ h; cases h)]; rfl

theorem noTriple_cons {c : Char} {rest : JStr} (h : noTriple (c :: rest) = true) :
    noTriple rest = true := by
  cases rest with
  | nil => rfl
  | cons d r =>
    cases r with
    | nil =>
      by_cases hd : d = ':' <;> simp_all [noTriple]
    | cons e r2 =>
      by_cases hc : c = ':' <;> by_cases hd : d = ':' <;> by_cases he : e = ':' <;>
        simp_all [noTriple]

theorem endsColon_cons {c : Char} {rest : JStr} (h : rest ≠ []) :
    endsColon (c :: rest) = endsColon rest := by
  cases rest with
  | nil => exact absurd rfl h
  | cons d r => rfl

theorem splitCols_noSep {s : JStr} (h : noSep s = true) : splitCols s = [s] := by
  induction s using splitCols.induct with
  | case1 => rfl
  | case2 rest ih => simp [noSep] at h
  | case3 c rest hne ih =>
    rw [splitCols.eq_3 c rest hne, ih (noSep_cons h), consHead]

theorem splitCols_append_sep {E : JStr} (rest : JStr)
    (h1 : noSep E = true) (h2 : endsColon E = false) :
    splitCols (E ++ ':' :: ':' :: rest) = E :: splitCols rest := by
  induction E with
  | nil => simpa using splitCols.eq_2 rest
  | cons c E ih =>
    have hrec : splitCols (E ++ ':' :: ':' :: rest) = E :: splitCols rest := by
      apply ih (noSep_cons h1)
      cases E with
      | nil => rfl
      | cons d r => rw [endsColon_cons (by simp)] at h2; exact h2
    have hcond : ∀ r, c = ':' → E ++ ':' :: ':' :: rest = ':' :: r → False := by
      intro r hc happ
      subst hc
      cases E with
      | nil => simp [endsColon] at h2
      | cons d r2 =>
        have hd : d = ':' := by simpa using congrArg (fun l => l.headI) happ
        subst hd
        simp [noSep] at h1
    calc splitCols ((c :: E) ++ ':' :: ':' :: rest)
        = consHead c (splitCols (E ++ ':' :: ':' :: rest)) :=
          splitCols.eq_3 c _ hcond
      _ = (c :: E) :: splitCols rest := by rw [hrec]; rfl

theorem escColons_eq_nil_iff (s : JStr) : escColons s = [] ↔ s = [] := by
  induction s using escColons.induct with
  | case1 => simp [escColons]
  | case2 rest ih => simp [escColons]
  | case3 c rest h ih => rw [escColons.eq_3 c rest h]; simp

theorem escColons_plain {s : JStr} (h : ':' ∉ s) : escColons s = s := by
  induction s using escColons.induct with
  | case1 => rfl
  | case2 rest ih => simp at h
  | case3 c rest hne ih =>
    rw [escColons.eq_3 c rest hne, ih (fun hm => h (List.mem_cons_of_mem c hm))]

theorem noSep_of_noColon {s : JStr} (h : ':' ∉ s) : noSep s = true := by
  induction s using noSep.induct with
  | case1 rest => simp at h
  | case2 c rest hne ih =>
    rw [noSep.eq_2 c rest hne]
    exact ih (fun hm => h (List.mem_cons_of_mem c hm))
  | case3 => rfl

theorem endsColon_false_of_noColon {s : JStr} (h : ':' ∉ s) :
    endsColon s = false := by
  induction s with
  | nil => rfl
  | cons c rest ih =>
    cases rest with
    | nil =>
      have : c ≠ ':' := fun hc => h (hc ▸ List.mem_singleton_self c)
      simpa [endsColon] using this
    | cons d r =>
      rw [endsColon_cons (by simp)]
      exact ih (fun hm => h (List.mem_cons_of_mem c hm))

theorem noTriple_of_noColon {s : JStr} (h : ':' ∉ s) : noTriple s = true := by
  induction s using noTriple.induct with
  | case1 rest => simp at h
  | case2 c rest hne ih =>
    rw [noTriple.eq_2 c rest hne]
    exact ih (fun hm => h (List.mem_cons_of_mem c hm))
  | case3 => rfl

theorem safeField_of_plain {s : JStr} (h : plainField s) : safeField s :=
  ⟨h.2, noTriple_of_noColon h.1, endsColon_false_of_noColon h.1⟩

theorem noSep_cons_iff (c : Char) (s : JStr) :
    noSep (c :: s) = true ↔
      ¬(c = ':' ∧ startsColon s = true) ∧ noSep s = true := by
  cases s with
  | nil => simp [noSep_singleton, startsColon, noSep]
  | cons d r =>
    by_cases hc : c = ':' <;> by_cases hd : d = ':' <;>
      simp_all [noSep, startsColon]

theorem startsColon_escColons {s : JStr} (h : startsColon s = false) :
    startsColon (escColons s) = false := by
  cases s with
  | nil => rfl
  | cons c rest =>
    have hc : c ≠ ':' := by
      intro hc; subst hc; simp [startsColon] at h
    have : escColons (c :: rest) = c :: escColons rest := by
      apply escColons.eq_3
      intro r h1 _; exact hc h1
    rw [this]
    simpa [startsColon] using hc

theorem safeField_sep_elim {rest : JStr} (h : safeField (':' :: ':' :: rest)) :
    rest ≠ [] ∧ startsColon rest = false ∧ safeField rest := by
  obtain ⟨hb, ht, he⟩ := h
  have hrne : rest ≠ [] := by
    intro hr; subst hr; simp [endsColon] at he
  have hstart : startsColon rest = false := by
    cases rest with
    | nil => rfl
    | cons d r =>
      by_cases hd : d = ':'
      · subst hd; simp [noTriple] at ht
      · simpa [startsColon] using hd
  refine ⟨hrne, hstart, ?_, ?_, ?_⟩
  · intro hm; exact hb (by simp [hm])
  · exact noTriple_cons (noTriple_cons ht)
  · rwa [endsColon_cons (by simp), endsColon_cons hrne] at he

theorem safeField_cons_elim {c : Char} {rest : JStr}
    (h : safeField (c :: rest)) (hne : rest ≠ []) : safeField rest := by
  obtain ⟨hb, ht, he⟩ := h
  refine ⟨fun hm => hb (List.mem_cons_of_mem c hm), noTriple_cons ht, ?_⟩
  rwa [endsColon_cons hne] at he

theorem escColons_safe {s : JStr} (h : safeField s) :
    noSep (escColons s) = true ∧ endsColon (escColons s) = false := by
  induction s using escColons.induct with
  | case1 => exact ⟨rfl, rfl⟩
  | case2 rest ih =>
    obtain ⟨hrne, hstart, hsafe⟩ := safeField_sep_elim h
    obtain ⟨ihsep, ihend⟩ := ih hsafe
    have hene : escColons rest ≠ [] := by
      rw [Ne, escColons_eq_nil_iff]; exact hrne
    constructor
    · rw [escColons.eq_2]
      rw [noSep_cons_iff, noSep_cons_iff]
      refine ⟨by simp, ?_, ihsep⟩
      intro ⟨_, hsc⟩
      rw [startsColon_escColons hstart] at hsc
      exact Bool.false_ne_true hsc
    · rw [escColons.eq_2, endsColon_cons (by simp), endsColon_cons hene]
      exact ihend
  | case3 c rest hne ih =>
    rw [escColons.eq_3 c rest hne]
    cases hr : rest with
    | nil =>
      subst hr
      exact ⟨noSep_singleton c, h.2.2⟩
    | cons d r =>
      subst hr
      have hsafe := safeField_cons_elim h (by simp)
      obtain ⟨ihsep, ihend⟩ := ih hsafe
      have hene : escColons (d :: r) ≠ [] := by
        rw [Ne, escColons_eq_nil_iff]; simp
      constructor
      · rw [noSep_cons_iff]
        refine ⟨?_, ihsep⟩
        intro ⟨hc, hsc⟩
        have hd : d ≠ ':' := by
          intro hd
          exact hne r hc (by rw [hd])
        rw [startsColon_escColons (by simpa [startsColon] using hd)] at hsc
        exact Bool.false_ne_true hsc
      · rw [endsColon_cons hene]
        exact ihend

theorem unescColons_escColons {s : JStr} (h : safeField s) :
    unescColons (escColons s) = s := by
  induction s using escColons.induct with
  | case1 => rfl
  | case2 rest ih =>
    obtain ⟨hrne, hstart, hsafe⟩ := safeField_sep_elim h
    rw [escColons.eq_2]
    show unescColons ('\\' :: ':' :: escColons rest) = ':' :: ':' :: rest
    rw [unescColons.eq_2, ih hsafe]
  | case3 c rest hne ih =>
    rw [escColons.eq_3 c rest hne]
    have hc : c ≠ '\\' := by
      intro hc; exact h.1 (by simp [hc])
    have step : unescColons (c :: escColons rest) = c :: unescColons (escColons rest) := by
      apply unescColons.eq_3
      intro r h1 _; exact hc h1
    rw [step]
    cases hr : rest with
    | nil => subst hr; rfl
    | cons d r =>
      subst hr
      rw [ih (safeField_cons_elim h (by simp))]

/-- Decimal digit characters. -/
def isDigitC (c : Char) : Bool := 48 ≤ c.toNat && c.toNat ≤ 57

/-- JavaScript whitespace recognised by `Number`/`parseInt`
(the common ASCII subset of the fragment). -/
def isWsChar (c : Char) : Bool :=
  c.toNat = 32 || c.toNat = 9 || c.toNat = 10 || c.toNat = 13 ||
    c.toNat = 11 || c.toNat = 12

/-- Strip whitespace from both ends. -/
def trimWs (s : JStr) : JStr :=
  ((s.dropWhile isWsChar).reverse.dropWhile isWsChar).reverse

/-- Maximal digit prefix of a string, with the remainder. -/
def takeDigits : JStr → JStr × JStr
  | [] => ([], [])
  | c :: rest =>
    if isDigitC c then
      let p := takeDigits rest
      (c :: p.1, p.2)
    else ([], c :: rest)

/-- Numeric value of a string of decimal digits. -/
def digitsVal (ds : JStr) : Nat :=
  ds.foldl (fun a c => 10 * a + (c.toNat - 48)) 0

/-- The character for a decimal digit. -/
def digitChar10 (d : Nat) : Char := Char.ofNat (48 + d)

/-- Fuel-driven base-`b` digit expansion (least significant first); with
fuel at least `n` it agrees with `Nat.digits`, and unlike the latter it
evaluates inside the kernel. -/
def natDigitsAux (b : Nat) : Nat → Nat → List Nat
  | 0, _ => []
  | fuel + 1, n => if n = 0 then [] else n % b :: natDigitsAux b fuel (n / b)

/-- Base-`b` digits of `n`, least significant first. -/
def natDigits (b n : Nat) : List Nat := natDigitsAux b n n

theorem natDigits_eq_digits (b : Nat) (hb : 1 < b) (n : Nat) :
    natDigits b n = Nat.digits b n := by
  unfold natDigits
  suffices H : ∀ fuel m, m ≤ fuel → natDigitsAux b fuel m = Nat.digits b m from
    H n n le_rfl
  intro fuel
  induction fuel with
  | zero =>
    intro m hm
    interval_cases m
    simp [natDigitsAux]
  | succ f ih =>
    intro m hm
    unfold natDigitsAux
    by_cases h0 : m = 0
    · simp [h0]
    · rw [if_neg h0, ih (m / b) ?_, ← Nat.digits_def' hb (Nat.pos_of_ne_zero h0)]
      have := Nat.div_lt_self (Nat.pos_of_ne_zero h0) hb
      omega

/-- Decimal rendering of a natural number (no leading zeros; `0 ↦ "0"`),
matching JavaScript `String(n)` on integers in the safe range. -/
def natToString (n : Nat) : JStr :=
  if n = 0 then ['0'] else ((natDigits 10 n).map digitChar10).reverse

/-- Decimal rendering of an integer, matching JavaScript `String(i)`. -/
def intToString (i : Int) : JStr :=
  if i < 0 then '-' :: natToString i.natAbs else natToString i.natAbs

/-- Kernel-evaluable rational addition (the library `+` on `ℚ` does not
reduce inside the kernel; `qadd_eq` shows this is ordinary addition). -/
def qadd (a b : ℚ) : ℚ := Rat.divInt (a.num * b.den + b.num * a.den) (a.den * b.den)

/-- Kernel-evaluable rational subtraction; see `qsub_eq`. -/
def qsub (a b : ℚ) : ℚ := Rat.divInt (a.num * b.den - b.num * a.den) (a.den * b.den)

/-- Kernel-evaluable rational multiplication; see `qmul_eq`. -/
def qmul (a b : ℚ) : ℚ := Rat.divInt (a.num * b.num) (a.den * b.den)

/-- Kernel-evaluable rational division; see `qdiv_eq`. -/
def qdiv (a b : ℚ) : ℚ := Rat.divInt (a.num * b.den) (a.den * b.num)

theorem qadd_eq (a b : ℚ) : qadd a b = a + b := by
  unfold qadd
  rw [Rat.divInt_eq_div]
  have ha : ((a.den : ℚ)) ≠ 0 := by exact_mod_cast a.den_nz
  have hb : ((b.den : ℚ)) ≠ 0 := by exact_mod_cast b.den_nz
  conv_rhs => rw [← Rat.num_div_den a, ← Rat.num_div_den b]
  push_cast
  field_simp

theorem qsub_eq (a b : ℚ) : qsub a b = a - b := by
  unfold qsub
  rw [Rat.divInt_eq_div]
  have ha : ((a.den : ℚ)) ≠ 0 := by exact_mod_cast a.den_nz
  have hb : ((b.den : ℚ)) ≠ 0 := by exact_mod_cast b.den_nz
  conv_rhs => rw [← Rat.num_div_den a, ← Rat.num_div_den b]
  push_cast
  field_simp
  ring

theorem qmul_eq (a b : ℚ) : qmul a b = a * b := by
  unfold qmul
  rw [Rat.divInt_eq_div]
  have ha : ((a.den : ℚ)) ≠ 0 := by exact_mod_cast a.den_nz
  have hb : ((b.den : ℚ)) ≠ 0 := by exact_mod_cast b.den_nz
  conv_rhs => rw [← Rat.num_div_den a, ← Rat.num_div_den b]
  push_cast
  field_simp

theorem qdiv_eq (a b : ℚ) : qdiv a b = a / b := by
  unfold qdiv
  by_cases hb0 : b = 0
  · subst hb0
    simp [Rat.divInt_eq_div]
  · rw [Rat.divInt_eq_div]
    have ha : ((a.den : ℚ)) ≠ 0 := by exact_mod_cast a.den_nz
    have hb : ((b.den : ℚ)) ≠ 0 := by exact_mod_cast b.den_nz
    have hbn : ((b.num : ℚ)) ≠ 0 := by
      exact_mod_cast Rat.num_ne_zero.mpr hb0
    conv_rhs => rw [← Rat.num_div_den a, ← Rat.num_div_den b]
    push_cast
    field_simp

/-- Kernel-evaluable signed power of ten; see `qpow10_eq`. -/
def qpow10 (e : Int) : ℚ :=
  if 0 ≤ e then ((10 : ℚ) ^ e.toNat) else Rat.divInt 1 (10 ^ (-e).toNat)

theorem qpow10_eq (e : Int) : qpow10 e = (10 : ℚ) ^ e := by
  unfold qpow10
  split
  · rw [← zpow_natCast]
    congr 1
    omega
  · rename_i he
    rw [Rat.divInt_eq_div]
    push_cast
    rw [one_div, ← zpow_natCast, ← zpow_neg]
    congr 1
    omega

/-- Value of the fractional-digit block `ds` (digits after the point). -/
def fracVal (ds : JStr) : ℚ := qdiv (digitsVal ds : ℚ) ((10 : ℚ) ^ ds.length)

/-- The first character is a decimal point. -/
def startsDot (s : JStr) : Bool := s.headI == '.'

/-- Exponent digits: after `e`/`E` and an optional sign, at least one digit
must follow; the parsed value is scaled by the signed power of ten. -/
def expDigits (q : ℚ) (sign : Int) (s : JStr) : Option (ℚ × JStr) :=
  if (takeDigits s).1.isEmpty then none
  else
    some (qmul q (qpow10 (sign * (digitsVal (takeDigits s).1 : Int))),
      (takeDigits s).2)

/-- Exponent tail after the `e`/`E` marker: optional sign, then digits. -/
def parseExpTail (q : ℚ) (s : JStr) : Option (ℚ × JStr) :=
  if s.headI = '+' then expDigits q 1 s.tail
  else if s.headI = '-' then expDigits q (-1) s.tail
  else expDigits q 1 s

/-- Optional exponent part of a decimal literal. -/
def parseExpPart (q : ℚ) (s : JStr) : Option (ℚ × JStr) :=
  if s.headI = 'e' ∨ s.headI = 'E' then parseExpTail q s.tail
  else some (q, s)

/-- Unsigned decimal literal: `digits [. digits] [exp]` or `. digits [exp]`,
as in the ECMAScript `StrUnsignedDecimalLiteral` grammar (the `Infinity`
production is outside the embedded fragment). -/
def parseDec (s : JStr) : Option (ℚ × JStr) :=
  if startsDot (takeDigits s).2 then
    if (takeDigits s).1.isEmpty && (takeDigits (takeDigits s).2.tail).1.isEmpty
    then none
    else
      parseExpPart (qadd (digitsVal (takeDigits s).1 : ℚ)
        (fracVal (takeDigits (takeDigits s).2.tail).1))
        (takeDigits (takeDigits s).2.tail).2
  else if (takeDigits s).1.isEmpty then none
  else parseExpPart ((digitsVal (takeDigits s).1 : ℚ)) (takeDigits s).2

/-- A decimal literal that must consume the whole string. -/
def decFull (s : JStr) : Option ℚ :=
  match parseDec s with
  | some (q, []) => some q
  | _ => none

/-- Value of a hex/oct/bin digit (99 marks an invalid character). -/
def digitValB (c : Char) : Nat :=
  if 48 ≤ c.toNat ∧ c.toNat ≤ 57 then c.toNat - 48
  else if 97 ≤ c.toNat ∧ c.toNat ≤ 102 then c.toNat - 87
  else if 65 ≤ c.toNat ∧ c.toNat ≤ 70 then c.toNat - 55
  else 99

/-- Radix literal body after the `0x`/`0o`/`0b` marker: nonempty string of
digits of the base, fully consumed. -/
def radixFull (b : Nat) (r : JStr) : Option ℚ :=
  if r ≠ [] ∧ ∀ c ∈ r, digitValB c < b then
    some ((r.foldl (fun a c => b * a + digitValB c) 0 : Nat) : ℚ)
  else none

/-- Base selected by the radix marker character. -/
def radixBase (c : Char) : Option Nat :=
  if c = 'x' ∨ c = 'X' then some 16
  else if c = 'o' ∨ c = 'O' then some 8
  else if c = 'b' ∨ c = 'B' then some 2
  else none

/-- Recognise a `0x`/`0X`/`0o`/`0O`/`0b`/`0B` radix prefix. -/
def radixPrefix (s : JStr) : Option (Nat × JStr) :=
  if 2 ≤ s.length ∧ s.headI = '0' then
    (radixBase s.tail.headI).map (fun b => (b, s.tail.tail))
  else none

/-- Model of JavaScript `Number(string)` on the embedded fragment:
whitespace-trimmed, empty string is `0`, optional sign with a decimal
literal, or an unsigned radix literal.  `none` models `NaN`; the
`Infinity` productions are outside the fragment (no theorem's scope
includes them). -/
def jsToNumber (s : JStr) : Option ℚ :=
  let t := trimWs s
  if t.isEmpty then some 0
  else if t.headI = '+' then decFull t.tail
  else if t.headI = '-' then (decFull t.tail).map Neg.neg
  else
    match radixPrefix t with
    | some p => radixFull p.1 p.2
    | none => decFull t

/-- Maximal leading digit run interpreted as an integer, with a sign flag;
`none` models `NaN` (no digits). -/
def jsParseIntDigits (neg : Bool) (s : JStr) : Option Int :=
  let p := takeDigits s
  if p.1.isEmpty then none
  else if neg then some (-(digitsVal p.1 : Int)) else some (digitsVal p.1)

/-- Sign dispatch of `parseInt` after whitespace stripping. -/
def jsParseIntCore (t : JStr) : Option Int :=
  if t.headI = '+' ∨ t.headI = '-' then jsParseIntDigits (t.headI == '-') t.tail
  else jsParseIntDigits false t

/-- Model of JavaScript `parseInt(s, 10)`: strip leading whitespace,
optional sign, then the maximal leading run of decimal digits (trailing
junk is ignored); `none` models `NaN` (no digits). -/
def jsParseInt (s : JStr) : Option Int :=
  jsParseIntCore (s.dropWhile isWsChar)

theorem digitChar10_toNat {d : Nat} (h : d < 10) :
    (digitChar10 d).toNat = 48 + d := by
  interval_cases d <;> decide

theorem isDigitC_digitChar10 {d : Nat} (h : d < 10) :
    isDigitC (digitChar10 d) = true := by
  interval_cases d <;> decide

theorem natToString_all_digits (n : Nat) :
    ∀ c ∈ natToString n, isDigitC c = true := by
  intro c hc
  unfold natToString at hc
  split at hc
  · simp at hc; subst hc; decide
  · rw [natDigits_eq_digits 10 (by norm_num) n] at hc
    simp only [List.mem_reverse, List.mem_map] at hc
    obtain ⟨d, hd, rfl⟩ := hc
    exact isDigitC_digitChar10 (Nat.digits_lt_base (by norm_num) hd)

theorem natToString_ne_nil (n : Nat) : natToString n ≠ [] := by
  unfold natToString
  split
  · simp
  · rw [natDigits_eq_digits 10 (by norm_num) n]
    simp [Nat.digits_ne_nil_iff_ne_zero, *]

/-- The first character of the string is a decimal digit. -/
def digitHead : JStr → Bool
  | [] => false
  | c :: _ => isDigitC c

theorem takeDigits_append {ds rest : JStr} (hds : ∀ c ∈ ds, isDigitC c = true)
    (hr : digitHead rest = false) : takeDigits (ds ++ rest) = (ds, rest) := by
  induction ds with
  | nil =>
    cases rest with
    | nil => rfl
    | cons c r =>
      simp only [digitHead] at hr
      simp [takeDigits, hr]
  | cons c ds ih =>
    have hc := hds c (by simp)
    simp only [List.cons_append, takeDigits, hc, if_true]
    rw [show ds.append rest = ds ++ rest from rfl,
      ih (fun x hx => hds x (by simp [hx]))]

theorem foldl_digits_map (L : List ℕ) (hL : ∀ d ∈ L, d < 10) (a : ℕ) :
    (L.map digitChar10).foldl (fun a c => 10 * a + (c.toNat - 48)) a =
      L.foldl (fun a d => 10 * a + d) a := by
  induction L generalizing a with
  | nil => rfl
  | cons d T ih =>
    simp only [List.map_cons, List.foldl_cons]
    rw [digitChar10_toNat (hL d (by simp))]
    rw [ih (fun x hx => hL x (by simp [hx]))]
    congr 1
    omega

theorem foldl_rev_digits (L : List ℕ) :
    L.reverse.foldl (fun a d => 10 * a + d) 0 = Nat.ofDigits 10 L := by
  induction L with
  | nil => rfl
  | cons d T ih =>
    rw [List.reverse_cons, List.foldl_append, ih]
    simp [Nat.ofDigits_cons]
    ring

theorem digitsVal_natToString (n : Nat) : digitsVal (natToString n) = n := by
  unfold natToString digitsVal
  split
  · subst ‹n = 0›; decide
  · rw [natDigits_eq_digits 10 (by norm_num) n]
    rw [← List.map_reverse, foldl_digits_map _ (fun d hd =>
      Nat.digits_lt_base (by norm_num) (List.mem_reverse.mp hd)) 0]
    rw [foldl_rev_digits]
    exact Nat.ofDigits_digits 10 n

theorem isDigitC_not_ws {c : Char} (h : isDigitC c = true) : isWsChar c = false := by
  simp only [isDigitC, Bool.and_eq_true, decide_eq_true_eq] at h
  simp only [isWsChar, Bool.or_eq_false_iff, decide_eq_false_iff_not]
  omega

theorem takeDigits_all {ds : JStr} (hds : ∀ c ∈ ds, isDigitC c = true) :
    takeDigits ds = (ds, []) := by
  induction ds with
  | nil => rfl
  | cons c r ih =>
    simp [takeDigits, hds c (by simp), ih (fun x hx => hds x (by simp [hx]))]

theorem trimWs_eq_self {s : JStr} (h : ∀ c ∈ s, isWsChar c = false) :
    trimWs s = s := by
  unfold trimWs
  have h1 : s.dropWhile isWsChar = s := by
    cases s with
    | nil => rfl
    | cons c r => rw [List.dropWhile_cons_of_neg (by simp [h c (by simp)])]
  rw [h1]
  have h2 : s.reverse.dropWhile isWsChar = s.reverse := by
    cases hs : s.reverse with
    | nil => rfl
    | cons c r =>
      rw [List.dropWhile_cons_of_neg]
      simp only [Bool.not_eq_true]
      apply h
      rw [← List.mem_reverse, hs]
      simp
  rw [h2, List.reverse_reverse]

theorem natToString_not_ws (n : Nat) : ∀ c ∈ natToString n, isWsChar c = false :=
  fun c hc => isDigitC_not_ws (natToString_all_digits n c hc)

theorem radixPrefix_digits {s : JStr} (h : ∀ c ∈ s, isDigitC c = true) :
    radixPrefix s = none := by
  unfold radixPrefix
  by_cases hc : 2 ≤ s.length ∧ s.headI = '0'
  · rw [if_pos hc]
    cases s with
    | nil => simp at hc
    | cons c1 t =>
      cases t with
      | nil => simp at hc
      | cons c2 r =>
        have h2 := h c2 (by simp)
        simp only [isDigitC, Bool.and_eq_true, decide_eq_true_eq] at h2
        have hb : radixBase ((c1 :: c2 :: r).tail.headI) = none := by
          show radixBase c2 = none
          unfold radixBase
          rw [if_neg (by rintro (rfl | rfl) <;> revert h2 <;> decide),
            if_neg (by rintro (rfl | rfl) <;> revert h2 <;> decide),
            if_neg (by rintro (rfl | rfl) <;> revert h2 <;> decide)]
        rw [hb]
        rfl
  · rw [if_neg hc]

theorem startsDot_nil : startsDot [] = false := by decide

theorem parseExpPart_nil (q : ℚ) : parseExpPart q [] = some (q, []) := by
  unfold parseExpPart
  rw [if_neg (by decide)]

theorem parseDec_digits {ds : JStr} (hds : ∀ c ∈ ds, isDigitC c = true)
    (hne : ds ≠ []) : parseDec ds = some ((digitsVal ds : ℚ), []) := by
  unfold parseDec
  simp only [takeDigits_all hds, startsDot_nil, Bool.false_eq_true, if_false,
    List.isEmpty_iff, hne, parseExpPart_nil]

theorem decFull_digits {ds : JStr} (hds : ∀ c ∈ ds, isDigitC c = true)
    (hne : ds ≠ []) : decFull ds = some ((digitsVal ds : ℚ)) := by
  unfold decFull
  rw [parseDec_digits hds hne]

theorem decFull_natToString (n : Nat) : decFull (natToString n) = some (n : ℚ) := by
  rw [decFull_digits (natToString_all_digits n) (natToString_ne_nil n),
    digitsVal_natToString]

theorem jsToNumber_natToString (n : Nat) :
    jsToNumber (natToString n) = some (n : ℚ) := by
  unfold jsToNumber
  simp only [trimWs_eq_self (natToString_not_ws n)]
  have hie : (natToString n).isEmpty = false := by
    simp [List.isEmpty_iff, natToString_ne_nil n]
  have hhead : isDigitC ((natToString n).headI) = true := by
    cases hs : natToString n with
    | nil => exact absurd hs (natToString_ne_nil n)
    | cons c r => exact natToString_all_digits n c (by rw [hs]; simp)
  simp only [isDigitC, Bool.and_eq_true, decide_eq_true_eq] at hhead
  rw [if_neg (by simp [hie]),
    if_neg (by intro hp; rw [hp] at hhead; revert hhead; decide),
    if_neg (by intro hp; rw [hp] at hhead; revert hhead; decide),
    radixPrefix_digits (natToString_all_digits n)]
  exact decFull_natToString n

theorem jsToNumber_intToString (i : Int) :
    jsToNumber (intToString i) = some (i : ℚ) := by
  unfold intToString
  by_cases hi : i < 0
  · rw [if_pos hi]
    unfold jsToNumber
    have hws : ∀ c ∈ '-' :: natToString i.natAbs, isWsChar c = false := by
      intro c hc
      rcases List.mem_cons.mp hc with rfl | hm
      · decide
      · exact natToString_not_ws _ c hm
    simp only [trimWs_eq_self hws]
    have hh : ('-' :: natToString i.natAbs).headI = '-' := rfl
    rw [if_neg (by simp), if_neg (by rw [hh]; decide), if_pos hh]
    show (decFull (natToString i.natAbs)).map Neg.neg = some (i : ℚ)
    rw [decFull_natToString]
    show some (-(i.natAbs : ℚ)) = some (i : ℚ)
    congr 1
    rw [Int.cast_natAbs, abs_of_nonpos (by exact_mod_cast le_of_lt hi)]
    push_cast
    ring
  · rw [if_neg hi, jsToNumber_natToString]
    congr 1
    rw [Int.cast_natAbs, abs_of_nonneg (by exact_mod_cast not_lt.mp hi)]

theorem jsParseIntDigits_digits {ds : JStr} (hds : ∀ c ∈ ds, isDigitC c = true)
    (hne : ds ≠ []) : jsParseIntDigits false ds = some (digitsVal ds : Int) := by
  unfold jsParseIntDigits
  simp only [takeDigits_all hds, List.isEmpty_iff, hne, if_false,
    Bool.false_eq_true]

theorem jsParseInt_natToString (n : Nat) :
    jsParseInt (natToString n) = some (n : Int) := by
  unfold jsParseInt
  have hdw : (natToString n).dropWhile isWsChar = natToString n := by
    cases hs : natToString n with
    | nil => rfl
    | cons c r =>
      rw [List.dropWhile_cons_of_neg]
      simp only [Bool.not_eq_true]
      exact natToString_not_ws n c (by rw [hs]; simp)
  rw [hdw]
  unfold jsParseIntCore
  have hhead : isDigitC ((natToString n).headI) = true := by
    cases hs : natToString n with
    | nil => exact absurd hs (natToString_ne_nil n)
    | cons c r => exact natToString_all_digits n c (by rw [hs]; simp)
  simp only [isDigitC, Bool.and_eq_true, decide_eq_true_eq] at hhead
  rw [if_neg (by
    rintro (hp | hp) <;> rw [hp] at hhead <;> revert hhead <;> decide)]
  rw [jsParseIntDigits_digits (natToString_all_digits n) (natToString_ne_nil n),
    digitsVal_natToString]

/-- JSON whitespace (space, tab, line feed, carriage return). -/
def isJsonWs (c : Char) : Bool :=
  c.toNat = 32 || c.toNat = 9 || c.toNat = 10 || c.toNat = 13

/-- Skip JSON whitespace. -/
def skipWs (s : JStr) : JStr := s.dropWhile isJsonWs

/-- Character escaping applied by `JSON.stringify` inside string literals
(the fragment escapes the quote, the backslash and the common control
characters; `\\u` forms are outside the fragment). -/
def escJsonChar (c : Char) : JStr :=
  if c = '"' then ['\\', '"']
  else if c = '\\' then ['\\', '\\']
  else if c = '\n' then ['\\', 'n']
  else if c = '\t' then ['\\', 't']
  else if c = '\r' then ['\\', 'r']
  else [c]

/-- Escape a whole string body for `JSON.stringify`. -/
def escJson : JStr → JStr
  | [] => []
  | c :: r => escJsonChar c ++ escJson r

/-- Fractional digits of a rational in `[0,1)`, up to a fuel bound
(JavaScript prints the shortest float representation; the fragment covers
finite decimal expansions, which is all the codec ever prints). -/
def fracDigits : Nat → ℚ → JStr
  | 0, _ => []
  | fuel + 1, x =>
    if x = 0 then []
    else
      digitChar10 (⌊qmul x 10⌋.toNat) ::
        fracDigits fuel (qsub (qmul x 10) (⌊qmul x 10⌋ : ℚ))

/-- Model of JavaScript `String(number)` on the embedded fragment:
integers print exactly; non-integers print a decimal expansion
(shortest-float corners are outside the fragment and outside every
theorem's scope). -/
def numToString (q : ℚ) : JStr :=
  if q.den = 1 then intToString q.num
  else
    (if q < 0 then ['-'] else []) ++ natToString ⌊|q|⌋.toNat ++
      '.' :: fracDigits 20 (|q| - ⌊|q|⌋)

/-- Comma-join rendered JSON items. -/
def commaJoin : List JStr → JStr
  | [] => []
  | [p] => p
  | p :: ps => p ++ ',' :: commaJoin ps

mutual

/-- Model of `JSON.stringify` on the embedded fragment.  `undef` at top
level and `Date` values (which `toJSON` turns into ISO strings) are
unreachable from the codec flows — `encodeValue` replaces every object
node, including dates, before stringification — and are rendered as
placeholders outside every theorem's scope. -/
def jsonStringify : JVal → JStr
  | .null => cs "null"
  | .undef => []
  | .bool b => if b then cs "true" else cs "false"
  | .num q => numToString q
  | .str s => '"' :: (escJson s ++ ['"'])
  | .date ms => '"' :: (intToString ms ++ ['"'])
  | .arr xs => '[' :: (commaJoin (jsonStringifyArr xs) ++ [']'])
  | .obj fs => '{' :: (commaJoin (jsonStringifyObj fs) ++ ['\x7d'])

/-- Rendered array elements (`undefined` renders as `null` inside arrays). -/
def jsonStringifyArr : List JVal → List JStr
  | [] => []
  | .undef :: r => cs "null" :: jsonStringifyArr r
  | v :: r => jsonStringify v :: jsonStringifyArr r

/-- Rendered object members (`undefined`-valued fields are dropped). -/
def jsonStringifyObj : List (JStr × JVal) → List JStr
  | [] => []
  | (_, .undef) :: r => jsonStringifyObj r
  | (k, v) :: r =>
    ('"' :: (escJson k ++ '"' :: ':' :: jsonStringify v)) :: jsonStringifyObj r

end

/-- Unescape one character after a backslash in a JSON string literal. -/
def unescJsonChar (c : Char) : Option Char :=
  if c = '"' then some '"'
  else if c = '\\' then some '\\'
  else if c = '/' then some '/'
  else if c = 'n' then some '\n'
  else if c = 't' then some '\t'
  else if c = 'r' then some '\r'
  else if c = 'b' then some '\x08'
  else if c = 'f' then some '\x0c'
  else none

/-- Parse a JSON string literal body (after the opening quote), returning
the unescaped content and the remainder after the closing quote. -/
def parseStrBody : JStr → Option (JStr × JStr)
  | [] => none
  | '"' :: r => some ([], r)
  | '\\' :: c :: r =>
    match unescJsonChar c with
    | some d => (parseStrBody r).map (fun p => (d :: p.1, p.2))
    | none => none
  | c :: r => (parseStrBody r).map (fun p => (c :: p.1, p.2))

/-- JSON number after the optional minus sign: integer part without
leading zeros, optional fraction, optional exponent (the exponent grammar
coincides with the decimal-literal exponent, hence `parseExpPart`). -/
def parseJsonNumAfterSign (s : JStr) : Option (ℚ × JStr) :=
  if (takeDigits s).1.isEmpty then none
  else if 1 < (takeDigits s).1.length ∧ (takeDigits s).1.headI = '0' then none
  else if startsDot (takeDigits s).2 then
    if (takeDigits (takeDigits s).2.tail).1.isEmpty then none
    else
      parseExpPart (qadd (digitsVal (takeDigits s).1 : ℚ)
        (fracVal (takeDigits (takeDigits s).2.tail).1))
        (takeDigits (takeDigits s).2.tail).2
  else parseExpPart ((digitsVal (takeDigits s).1 : ℚ)) (takeDigits s).2

/-- JSON number with optional minus sign. -/
def parseJsonNumber (s : JStr) : Option (ℚ × JStr) :=
  if s.headI = '-' then (parseJsonNumAfterSign s.tail).map (fun p => (-p.1, p.2))
  else parseJsonNumAfterSign s

/-- Match a literal keyword, returning the remainder. -/
def dropKeyword : JStr → JStr → Option JStr
  | [], s => some s
  | _ :: _, [] => none
  | c :: k, d :: s => if c = d then dropKeyword k s else none

mutual

/-- Fueled recursive-descent parser for JSON values
(model of `JSON.parse` on the embedded fragment; `\\u` escapes and
non-integer exponent corners follow the grammar with exact rational
arithmetic). -/
def jsonParseVal : Nat → JStr → Option (JVal × JStr)
  | 0, _ => none
  | fuel + 1, s =>
    let t := skipWs s
    if t.headI = '\x7b' then
      let t2 := skipWs t.tail
      if t2.headI = '\x7d' then some (.obj [], t2.tail)
      else (jsonParseMembers fuel t2).map (fun p => (JVal.obj p.1, p.2))
    else if t.headI = '[' then
      let t2 := skipWs t.tail
      if t2.headI = ']' then some (.arr [], t2.tail)
      else (jsonParseElems fuel t2).map (fun p => (JVal.arr p.1, p.2))
    else if t.headI = '"' then
      (parseStrBody t.tail).map (fun p => (JVal.str p.1, p.2))
    else if t.headI = 't' then
      (dropKeyword (cs "true") t).map (fun r => (JVal.bool true, r))
    else if t.headI = 'f' then
      (dropKeyword (cs "false") t).map (fun r => (JVal.bool false, r))
    else if t.headI = 'n' then
      (dropKeyword (cs "null") t).map (fun r => (JVal.null, r))
    else
      (parseJsonNumber t).map (fun p => (JVal.num p.1, p.2))

/-- Parse one or more comma-separated `"key": value` members followed by
the closing brace. -/
def jsonParseMembers : Nat → JStr → Option (List (JStr × JVal) × JStr)
  | 0, _ => none
  | fuel + 1, s =>
    let t := skipWs s
    if t.headI = '"' then
      match parseStrBody t.tail with
      | none => none
      | some (k, r1) =>
        let r2 := skipWs r1
        if r2.headI = ':' then
          match jsonParseVal fuel r2.tail with
          | none => none
          | some (v, r3) =>
            let r4 := skipWs r3
            if r4.headI = ',' then
              (jsonParseMembers fuel r4.tail).map (fun p => ((k, v) :: p.1, p.2))
            else if r4.headI = '\x7d' then some ([(k, v)], r4.tail)
            else none
        else none
    else none

/-- Parse one or more comma-separated array elements followed by the
closing bracket. -/
def jsonParseElems : Nat → JStr → Option (List JVal × JStr)
  | 0, _ => none
  | fuel + 1, s =>
    match jsonParseVal fuel s with
    | none => none
    | some (v, r) =>
      let r2 := skipWs r
      if r2.headI = ',' then
        (jsonParseElems fuel r2.tail).map (fun p => (v :: p.1, p.2))
      else if r2.headI = ']' then some ([v], r2.tail)
      else none

end

/-- Model of `JSON.parse`: parse one value and require that only
whitespace remains; `none` models a thrown `SyntaxError`. -/
def jsonParseFull (s : JStr) : Option JVal :=
  match jsonParseVal (s.length + 1) s with
  | some (v, r) => if (skipWs r).isEmpty then some v else none
  | none => none

/-- The `MAX_CONTEXT_DEPTH` constant of `hdd-core.js`. -/
def MAX_CONTEXT_DEPTH : Nat := 10

/-- JavaScript truthiness of a value (`NaN` is outside the fragment). -/
def jsTruthy : JVal → Bool
  | .null => false
  | .undef => false
  | .bool b => b
  | .num q => !(q == 0)
  | .str s => !s.isEmpty
  | .date _ => true
  | .arr _ => true
  | .obj _ => true

/-- Whether `typeof v === 'object'` (true for `null`, dates, arrays and
plain objects). -/
def typeofObject : JVal → Bool
  | .null => true
  | .date _ => true
  | .arr _ => true
  | .obj _ => true
  | _ => false

mutual

/-- Model of `encodeValue` from `hdd-core.js`: depth-guarded polymorphic
value encoding.  Scalars render as their text; strings get the colon
escape; dates render as epoch milliseconds; arrays and objects replace
every `typeof === 'object'` child (including `null` children, which
encode to the empty string) by its recursive encoding and serialize the
result with `JSON.stringify`. -/
def encodeValue (v : JVal) (depth : Nat) : JStr :=
  if MAX_CONTEXT_DEPTH < depth then []
  else
    match v with
    | .null => []
    | .undef => []
    | .num q => numToString q
    | .bool b => if b then cs "true" else cs "false"
    | .str s => escColons s
    | .date ms => intToString ms
    | .arr xs => jsonStringify (.arr (encodeItems xs depth))
    | .obj fs => jsonStringify (.obj (encodeEntries fs depth))

/-- Array items with object-typed children replaced by their encodings. -/
def encodeItems : List JVal → Nat → List JVal
  | [], _ => []
  | item :: r, depth =>
    (if typeofObject item then JVal.str (encodeValue item (depth + 1)) else item)
      :: encodeItems r depth

/-- Object entries with object-typed children replaced by their encodings. -/
def encodeEntries : List (JStr × JVal) → Nat → List (JStr × JVal)
  | [], _ => []
  | (k, v) :: r, depth =>
    (k, if typeofObject v then JVal.str (encodeValue v (depth + 1)) else v)
      :: encodeEntries r depth

end

/-- Coercion to a signed 32-bit integer (the effect of `hash & hash` and
of `<<` in JavaScript). -/
def toInt32 (n : Int) : Int := (n + 2 ^ 31) % 2 ^ 32 - 2 ^ 31

/-- One step of the rolling hash: `hash = ((hash << 5) - hash) + char`
followed by the 32-bit coercion `hash = hash & hash`. -/
def hashStep (h : Int) (c : Char) : Int :=
  toInt32 (toInt32 (h * 32) - h + c.toNat)

/-- The character for a base-36 digit (`0`-`9` then `a`-`z`). -/
def digitChar36 (d : Nat) : Char :=
  if d < 10 then Char.ofNat (48 + d) else Char.ofNat (87 + d)

/-- Base-36 rendering of a natural number, as `Number.prototype.toString(36)`. -/
def natToBase36 (n : Nat) : JStr :=
  if n = 0 then ['0'] else ((natDigits 36 n).map digitChar36).reverse

/-- Model of `generateIntegrityHash` from `hdd-core.js`. -/
def generateIntegrityHash (data : JStr) : JStr :=
  natToBase36 (data.foldl hashStep 0).natAbs

/-- Model of `encode` from `hdd-core.js`.  The wall clock `Date.now()` is
passed explicitly as `now` (the sole external dependency, injected for
deterministic reasoning); the empty string models the `''` error
returns. -/
def encode (now : Nat) (activity : JStr) (value : JVal)
    (context : JVal := .null) (version : JStr := CURRENT_VERSION) : JStr :=
  if activity = [] then []
  else
    let encodedValue := encodeValue value 0
    if encodedValue = [] ∧ value ≠ .null ∧ value ≠ .undef then []
    else
      let encodedContext :=
        if jsTruthy context && typeofObject context then
          let ec := encodeValue context 1
          if 1000 < ec.length then
            match jsonParseFull ec with
            | some d =>
              jsonStringify (.obj [(cs "data", d),
                (cs "_integrity", .str (generateIntegrityHash ec)),
                (cs "_ts", .num now)])
            | none => ec
          else ec
        else []
      let parts := [escColons activity, natToString now, encodedValue,
        encodedContext, version].filter (fun p => !p.isEmpty)
      let hddString := joinCols parts
      if (splitCols hddString).length < 3 then [] else hddString

/-- The first character of the string (as an `Option`-safe test). -/
def startsWithC (s : JStr) (c : Char) : Bool := s.head? == some c

/-- The last character of the string (as an `Option`-safe test). -/
def endsWithC (s : JStr) (c : Char) : Bool := s.getLast? == some c

/-- A decoded activity record, mirroring the object literal returned by
`decode`; a `NaN` timestamp (non-numeric second field) is `none`. -/
structure DecodedRecord where
  activity : JStr
  timestamp : Option Int
  value : JVal
  context : JVal
  version : JStr
deriving DecidableEq

/-- Value-field coercion of `decode`: try a structured-object parse, then
a structured-list parse, then `Number` coercion, else keep the raw
(unescaped) text; a thrown `JSON.parse` error keeps the text. -/
def decodeValueField (rawValue : JStr) : JVal :=
  if startsWithC rawValue '\x7b' && endsWithC rawValue '\x7d' then
    match jsonParseFull rawValue with
    | some v => v
    | none => JVal.str rawValue
  else if startsWithC rawValue '[' && endsWithC rawValue ']' then
    match jsonParseFull rawValue with
    | some v => v
    | none => JVal.str rawValue
  else if (jsToNumber rawValue).isSome && !(trimWs rawValue).isEmpty then
    JVal.num ((jsToNumber rawValue).getD 0)
  else JVal.str rawValue

/-- Context-field handling of `decode`: a falsy (missing or empty) fourth
field is `null`; otherwise `JSON.parse`, keeping the raw text on a parse
error. -/
def decodeContextField (p3 : JStr) : JVal :=
  if p3.isEmpty then .null
  else
    match jsonParseFull p3 with
    | some v => v
    | none => .str p3

/-- Model of `decode` from `hdd-core.js`: `none` models the `null` error
returns (non-string input, length below 5, or fewer than 3 fields);
otherwise every field degrades permissively exactly as the source does. -/
def decode (hddString : JStr) : Option DecodedRecord :=
  if hddString.length < 5 then none
  else
    let parts := splitCols hddString
    if parts.length < 3 then none
    else
      let p4 := parts.getD 4 []
      some ⟨unescColons (parts.getD 0 []),
        jsParseInt (parts.getD 1 []),
        decodeValueField (unescColons (parts.getD 2 [])),
        decodeContextField (parts.getD 3 []),
        if p4.isEmpty then CURRENT_VERSION else p4⟩

theorem unescColons_plain {s : JStr} (h : '\\' ∉ s) : unescColons s = s := by
  induction s using unescColons.induct with
  | case1 => rfl
  | case2 rest ih => simp at h
  | case3 c rest hne ih =>
    rw [unescColons.eq_3 c rest hne,
      ih (fun hm => h (List.mem_cons_of_mem c hm))]

theorem intToString_mem {i : Int} :
    ∀ c ∈ intToString i, isDigitC c = true ∨ c = '-' := by
  intro c hc
  unfold intToString at hc
  split at hc
  · rcases List.mem_cons.mp hc with rfl | hm
    · exact Or.inr rfl
    · exact Or.inl (natToString_all_digits _ c hm)
  · exact Or.inl (natToString_all_digits _ c hc)

theorem digit_or_dash_no_colon {s : JStr}
    (h : ∀ c ∈ s, isDigitC c = true ∨ c = '-') : ':' ∉ s := by
  intro hm
  rcases h ':' hm with hd | hd
  · revert hd; decide
  · cases hd

theorem natToString_no_colon (n : Nat) : ':' ∉ natToString n :=
  digit_or_dash_no_colon (fun c hc => Or.inl (natToString_all_digits n c hc))

theorem natToString_no_backslash (n : Nat) : '\\' ∉ natToString n := by
  intro hm
  have := natToString_all_digits n '\\' hm
  revert this; decide

/-- Join of exactly four parts. -/
theorem joinCols_four (p1 p2 p3 p4 : JStr) :
    joinCols [p1, p2, p3, p4] =
      p1 ++ ':' :: ':' :: (p2 ++ ':' :: ':' :: (p3 ++ ':' :: ':' :: p4)) := by
  simp [joinCols]

/-- Join of exactly five parts. -/
theorem joinCols_five (p1 p2 p3 p4 p5 : JStr) :
    joinCols [p1, p2, p3, p4, p5] =
      p1 ++ ':' :: ':' ::
        (p2 ++ ':' :: ':' :: (p3 ++ ':' :: ':' :: (p4 ++ ':' :: ':' :: p5))) := by
  simp [joinCols]

/-- A part is split-transparent: no delimiter inside and no trailing colon. -/
def partSafe (p : JStr) : Prop := noSep p = true ∧ endsColon p = false

instance (p : JStr) : Decidable (partSafe p) := by
  unfold partSafe; infer_instance

theorem partSafe_of_noColon {p : JStr} (h : ':' ∉ p) : partSafe p :=
  ⟨noSep_of_noColon h, endsColon_false_of_noColon h⟩

theorem splitCols_four {p1 p2 p3 p4 : JStr}
    (h1 : partSafe p1) (h2 : partSafe p2) (h3 : partSafe p3)
    (h4 : noSep p4 = true) :
    splitCols (joinCols [p1, p2, p3, p4]) = [p1, p2, p3, p4] := by
  rw [joinCols_four,
    splitCols_append_sep _ h1.1 h1.2,
    splitCols_append_sep _ h2.1 h2.2,
    splitCols_append_sep _ h3.1 h3.2,
    splitCols_noSep h4]

theorem splitCols_five {p1 p2 p3 p4 p5 : JStr}
    (h1 : partSafe p1) (h2 : partSafe p2) (h3 : partSafe p3)
    (h4 : partSafe p4) (h5 : noSep p5 = true) :
    splitCols (joinCols [p1, p2, p3, p4, p5]) = [p1, p2, p3, p4, p5] := by
  rw [joinCols_five,
    splitCols_append_sep _ h1.1 h1.2,
    splitCols_append_sep _ h2.1 h2.2,
    splitCols_append_sep _ h3.1 h3.2,
    splitCols_append_sep _ h4.1 h4.2,
    splitCols_noSep h5]

theorem encode_noctx_split (now : Nat) (a : JStr) (v : JVal) (ha : a ≠ [])
    (hsafe : safeField a) (hV : encodeValue v 0 ≠ [])
    (hVsafe : partSafe (encodeValue v 0)) :
    encode now a v =
      joinCols [escColons a, natToString now, encodeValue v 0, CURRENT_VERSION] ∧
    splitCols (encode now a v) =
      [escColons a, natToString now, encodeValue v 0, CURRENT_VERSION] := by
  have hA := escColons_safe hsafe
  have hAne : escColons a ≠ [] := by rw [Ne, escColons_eq_nil_iff]; exact ha
  have hT : partSafe (natToString now) :=
    partSafe_of_noColon (natToString_no_colon now)
  have hsplit : splitCols (joinCols [escColons a, natToString now,
      encodeValue v 0, CURRENT_VERSION]) =
      [escColons a, natToString now, encodeValue v 0, CURRENT_VERSION] :=
    splitCols_four ⟨hA.1, hA.2⟩ hT hVsafe (by decide)
  have henc : encode now a v =
      joinCols [escColons a, natToString now, encodeValue v 0, CURRENT_VERSION] := by
    unfold encode
    rw [if_neg ha, if_neg (by rintro ⟨h1, -⟩; exact hV h1)]
    simp only [jsTruthy, typeofObject, Bool.false_and, Bool.false_eq_true,
      if_false]
    have hfil : [escColons a, natToString now, encodeValue v 0, ([] : JStr),
        CURRENT_VERSION].filter (fun p => !p.isEmpty) =
        [escColons a, natToString now, encodeValue v 0, CURRENT_VERSION] := by
      simp [List.filter_cons, List.isEmpty_iff, hAne, natToString_ne_nil now, hV,
        CURRENT_VERSION]
    simp only [hfil, hsplit]
    rw [if_neg (by simp)]
  exact ⟨henc, by rw [henc, hsplit]⟩

theorem decode_encode_noctx (now : Nat) (a : JStr) (v : JVal) (ha : a ≠ [])
    (hsafe : safeField a) (hV : encodeValue v 0 ≠ [])
    (hVsafe : partSafe (encodeValue v 0)) :
    decode (encode now a v) = some ⟨a, some now,
      decodeValueField (unescColons (encodeValue v 0)),
      decodeContextField CURRENT_VERSION, CURRENT_VERSION⟩ := by
  obtain ⟨henc, hsplit⟩ := encode_noctx_split now a v ha hsafe hV hVsafe
  rw [henc] at hsplit ⊢
  unfold decode
  rw [if_neg (by
    rw [joinCols_four]
    simp only [List.length_append, List.length_cons, not_lt]
    omega)]
  simp only [hsplit]
  rw [if_neg (by simp)]
  simp only [List.getD, List.get?_cons_zero, List.get?_cons_succ,
    Option.getD_some, Option.getD_none, List.get?_nil]
  rw [unescColons_escColons hsafe, jsParseInt_natToString]
  simp

theorem trimWs_head {s : JStr} (h : trimWs s ≠ []) :
    (trimWs s).headI ∈ s ∧ isWsChar ((trimWs s).headI) = false := by
  have heq : trimWs s = (s.dropWhile isWsChar).rdropWhile isWsChar := by
    unfold trimWs List.rdropWhile
    rfl
  obtain ⟨t, ht⟩ := List.rdropWhile_prefix isWsChar (s.dropWhile isWsChar)
  cases hc : trimWs s with
  | nil => exact absurd hc h
  | cons c rest =>
    rw [heq] at hc
    have hu : s.dropWhile isWsChar = c :: (rest ++ t) := by
      rw [← ht, hc]; simp
    have hcs : c ∈ s := by
      have : c ∈ s.dropWhile isWsChar := by rw [hu]; simp
      exact (List.dropWhile_sublist isWsChar).mem this
    have hne : s.dropWhile isWsChar ≠ [] := by rw [hu]; simp
    have hws := List.head_dropWhile_not isWsChar s hne
    rw [← heq] at hc
    have hhead : (s.dropWhile isWsChar).head hne = c := by
      rw [List.head_eq_iff_head?_eq_some]  -- may not exist; fallback below
      rw [hu]; rfl
    constructor
    · exact hcs
    · show isWsChar c = false
      rw [← hhead]; exact hws

theorem startsWithC_false {s : JStr} {c : Char} (h : ∀ d ∈ s, d ≠ c) :
    startsWithC s c = false := by
  unfold startsWithC
  cases s with
  | nil => rfl
  | cons d r => simp [h d (by simp)]

/-- Plain text values: nonempty strings of lowercase letters, spaces and
underscores.  Such text is untouched by colon escaping and is never
coerced by the decoder's object/list/number branches. -/
def plainText (s : JStr) : Prop :=
  s ≠ [] ∧ ∀ c ∈ s, (97 ≤ c.toNat ∧ c.toNat ≤ 122) ∨ c = ' ' ∨ c = '_'

instance (s : JStr) : Decidable (plainText s) := by
  unfold plainText; infer_instance

theorem plainText_plainField {s : JStr} (h : plainText s) : plainField s := by
  constructor
  · intro hm
    rcases h.2 ':' hm with hc | hc | hc
    · revert hc; decide
    · cases hc
    · cases hc
  · intro hm
    rcases h.2 '\\' hm with hc | hc | hc
    · revert hc; decide
    · cases hc
    · cases hc

theorem jsToNumber_plainText {s : JStr} (h : plainText s) :
    jsToNumber s = none ∨ trimWs s = [] := by
  by_cases ht : trimWs s = []
  · exact Or.inr ht
  · left
    obtain ⟨hmem, hws⟩ := trimWs_head ht
    have hchar := h.2 _ hmem
    have hc : (trimWs s).headI.toNat = 95 ∨
        (97 ≤ (trimWs s).headI.toNat ∧ (trimWs s).headI.toNat ≤ 122) := by
      rcases hchar with hcl | hsp | hus
      · exact Or.inr hcl
      · exact absurd (hsp ▸ hws) (by decide)
      · exact Or.inl (by rw [hus]; rfl)
    unfold jsToNumber
    rw [if_neg (by simp [List.isEmpty_iff, ht]),
      if_neg (by intro hp; rw [hp] at hc; revert hc; decide),
      if_neg (by intro hp; rw [hp] at hc; revert hc; decide)]
    have hrp : radixPrefix (trimWs s) = none := by
      unfold radixPrefix
      rw [if_neg]
      rintro ⟨-, hz⟩
      rw [hz] at hc; revert hc; decide
    rw [hrp]
    show decFull (trimWs s) = none
    cases hu : trimWs s with
    | nil => exact absurd hu ht
    | cons c rest =>
      rw [hu] at hc
      simp only [List.headI] at hc
      have hcd : isDigitC c = false := by
        simp only [isDigitC, Bool.and_eq_false_iff, decide_eq_false_iff_not]
        omega
      have htd : takeDigits (c :: rest) = ([], c :: rest) := by
        unfold takeDigits
        simp [hcd]
      have hdot : startsDot (c :: rest) = false := by
        unfold startsDot
        simp only [List.headI, beq_eq_false_iff_ne, Ne]
        intro hh; rw [hh] at hc; revert hc; decide
      unfold decFull parseDec
      simp only [htd, hdot, Bool.false_eq_true, if_false, List.isEmpty_nil,
        if_true]

theorem intToString_ne_nil (i : Int) : intToString i ≠ [] := by
  unfold intToString
  split
  · simp
  · exact natToString_ne_nil _

theorem intToString_not_ws {i : Int} : ∀ c ∈ intToString i, isWsChar c = false := by
  intro c hc
  rcases intToString_mem _ hc with h | h
  · exact isDigitC_not_ws h
  · rw [h]; decide

theorem intToString_no_colon (i : Int) : ':' ∉ intToString i :=
  digit_or_dash_no_colon intToString_mem

theorem intToString_no_backslash (i : Int) : '\\' ∉ intToString i := by
  intro hm
  rcases intToString_mem _ hm with h | h
  · revert h; decide
  · revert h; decide

theorem encodeValue_int (m : ℤ) :
    encodeValue (.num (m : ℚ)) 0 = intToString m := by
  show numToString ((m : ℚ)) = intToString m
  unfold numToString
  rw [if_pos (Rat.den_intCast m), Rat.num_intCast]

theorem encodeValue_bool (b : Bool) :
    encodeValue (.bool b) 0 = (if b then cs "true" else cs "false") := rfl

theorem encodeValue_str (s : JStr) : encodeValue (.str s) 0 = escColons s := rfl

theorem decodeValueField_int (m : ℤ) :
    decodeValueField (intToString m) = .num (m : ℚ) := by
  unfold decodeValueField
  have h1 : startsWithC (intToString m) '\x7b' = false := by
    apply startsWithC_false
    intro d hd he
    subst he
    rcases intToString_mem _ hd with h | h
    · revert h; decide
    · revert h; decide
  have h2 : startsWithC (intToString m) '[' = false := by
    apply startsWithC_false
    intro d hd he
    subst he
    rcases intToString_mem _ hd with h | h
    · revert h; decide
    · revert h; decide
  have htw : trimWs (intToString m) = intToString m :=
    trimWs_eq_self intToString_not_ws
  rw [jsToNumber_intToString]
  simp [h1, h2, htw, List.isEmpty_iff, intToString_ne_nil m]

theorem decodeValueField_plainText {s : JStr} (h : plainText s) :
    decodeValueField s = .str s := by
  unfold decodeValueField
  have h1 : startsWithC s '\x7b' = false := by
    apply startsWithC_false
    intro d hd he
    subst he
    have := h.2 _ hd
    revert this; decide
  have h2 : startsWithC s '[' = false := by
    apply startsWithC_false
    intro d hd he
    subst he
    have := h.2 _ hd
    revert this; decide
  rcases jsToNumber_plainText h with hn | ht
  · simp [h1, h2, hn]
  · simp [h1, h2, ht]

/-- The value a scalar survives decoding as: numbers and plain text are
unchanged, while booleans come back as their rendered text. -/
def decodedScalar : JVal → JVal
  | .bool b => .str (if b then cs "true" else cs "false")
  | v => v

/-- C1 (amended): for a nonempty colon-free activity and a scalar value
that is an integer number, a boolean, or plain text, `decode ∘ encode`
succeeds, preserves the activity and the timestamp, and yields the value
unchanged for numbers and plain text but the rendered text `"true"` /
`"false"` for booleans. -/
theorem c1_scalar_roundtrip_amended (now : Nat) (a : JStr) (v : JVal)
    (ha : a ≠ []) (hap : plainField a)
    (hv : (∃ m : ℤ, v = .num (m : ℚ)) ∨ (∃ b : Bool, v = .bool b) ∨
      (∃ s : JStr, v = .str s ∧ plainText s)) :
    ∃ r, decode (encode now a v) = some r ∧ r.activity = a ∧
      r.value = decodedScalar v ∧ r.timestamp = some now ∧
      r.version = CURRENT_VERSION := by
  have hsafe : safeField a := safeField_of_plain hap
  rcases hv with ⟨m, rfl⟩ | ⟨b, rfl⟩ | ⟨s, rfl, hs⟩
  · have hV : encodeValue (.num (m : ℚ)) 0 = intToString m := encodeValue_int m
    refine ⟨_, decode_encode_noctx now a _ ha hsafe ?_ ?_, rfl, ?_, rfl, rfl⟩
    · rw [hV]; exact intToString_ne_nil m
    · rw [hV]; exact partSafe_of_noColon (intToString_no_colon m)
    · show decodeValueField (unescColons (encodeValue (.num (m : ℚ)) 0)) = _
      rw [hV, unescColons_plain (intToString_no_backslash m),
        decodeValueField_int]
      rfl
  · cases b
    · refine ⟨_, decode_encode_noctx now a _ ha hsafe (by decide) (by decide),
        rfl, ?_, rfl, rfl⟩
      show decodeValueField (unescColons (encodeValue (.bool false) 0)) = _
      decide
    · refine ⟨_, decode_encode_noctx now a _ ha hsafe (by decide) (by decide),
        rfl, ?_, rfl, rfl⟩
      show decodeValueField (unescColons (encodeValue (.bool true) 0)) = _
      decide
  · have hpf := plainText_plainField hs
    have hV : encodeValue (.str s) 0 = s := by
      rw [encodeValue_str, escColons_plain hpf.1]
    refine ⟨_, decode_encode_noctx now a _ ha hsafe ?_ ?_, rfl, ?_, rfl, rfl⟩
    · rw [hV]; exact hs.1
    · rw [hV]; exact partSafe_of_noColon hpf.1
    · show decodeValueField (unescColons (encodeValue (.str s) 0)) = _
      rw [hV, unescColons_plain hpf.2, decodeValueField_plainText hs]
      rfl

/-- Witness for C1's amended theorem at a concrete input. -/
theorem c1_witness :
    ∃ r, decode (encode 1735682400000 (cs "login") (.num ((1 : ℤ) : ℚ))) =
        some r ∧ r.activity = cs "login" ∧
      r.value = decodedScalar (.num ((1 : ℤ) : ℚ)) ∧
      r.timestamp = some 1735682400000 ∧ r.version = CURRENT_VERSION :=
  c1_scalar_roundtrip_amended 1735682400000 (cs "login") (.num ((1 : ℤ) : ℚ))
    (by decide) (by decide) (Or.inl ⟨1, rfl⟩)

/-- C1 counterexample: encoding the boolean `true` decodes to the text
`"true"`, not the boolean, so the round-trip claim fails for booleans. -/
theorem c1_counterexample :
    decode (encode 1735682400000 (cs "login") (.bool true)) =
      some ⟨cs "login", some 1735682400000, .str (cs "true"),
        .num (Rat.divInt 11 10), CURRENT_VERSION⟩ ∧
    JVal.str (cs "true") ≠ .bool true := by
  constructor
  · decide
  · decide

/-- C4 (amended): `decode` returns the hard error `null` exactly when the
input is shorter than 5 characters or splits into fewer than 3 fields;
any other input decodes successfully, with malformed optional fields
degrading to permissive defaults inside the returned record. -/
theorem c4_decode_hard_error_iff (s : JStr) :
    decode s = none ↔ s.length < 5 ∨ (splitCols s).length < 3 := by
  unfold decode
  by_cases h1 : s.length < 5
  · simp [h1]
  · by_cases h2 : (splitCols s).length < 3 <;> simp [h1, h2]

/-- C4 counterexample: `"::::"` splits into 3 fields yet `decode`
hard-errors on it (the length-below-5 guard), refuting the claimed
"exactly when fewer than 3 fields". -/
theorem c4_counterexample :
    (splitCols (cs "::::")).length = 3 ∧ decode (cs "::::") = none := by
  constructor
  · decide
  · decide

theorem headI_cons_tail {s : JStr} (h : s ≠ []) : s.headI :: s.tail = s := by
  cases s with
  | nil => exact absurd rfl h
  | cons c t => rfl

theorem takeDigits_eq (s : JStr) :
    s = (takeDigits s).1 ++ (takeDigits s).2 ∧
      ∀ c ∈ (takeDigits s).1, isDigitC c = true := by
  induction s with
  | nil => exact ⟨rfl, by simp [takeDigits]⟩
  | cons c t ih =>
    by_cases hc : isDigitC c = true
    · constructor
      · show c :: t = _
        simp only [takeDigits, hc, if_true]
        rw [List.cons_append]
        exact congrArg (c :: ·) ih.1
      · intro d hd
        simp only [takeDigits, hc, if_true] at hd
        rcases List.mem_cons.mp hd with rfl | hm
        · exact hc
        · exact ih.2 d hm
    · rw [Bool.not_eq_true] at hc
      constructor
      · show c :: t = _
        simp [takeDigits, hc]
      · intro d hd
        simp [takeDigits, hc] at hd

/-- Characters a decimal literal can consume. -/
def numChar (c : Char) : Bool :=
  isDigitC c || c == '.' || c == 'e' || c == 'E' || c == '+' || c == '-'

theorem expDigits_result {q : ℚ} {sg : Int} {s : JStr} {q2 : ℚ} {r : JStr}
    (h : expDigits q sg s = some (q2, r)) :
    ∃ ds, s = ds ++ r ∧ ∀ c ∈ ds, isDigitC c = true := by
  unfold expDigits at h
  split at h
  · cases h
  · obtain ⟨hs, hds⟩ := takeDigits_eq s
    simp only [Option.some.injEq, Prod.mk.injEq] at h
    exact ⟨(takeDigits s).1, by rw [h.2] at hs; exact hs, hds⟩

theorem parseExpTail_result {q : ℚ} {s : JStr} {q2 : ℚ} {r : JStr}
    (h : parseExpTail q s = some (q2, r)) :
    ∃ pre, s = pre ++ r ∧ ∀ c ∈ pre, numChar c = true := by
  unfold parseExpTail at h
  split at h
  · rename_i hp
    have hne : s ≠ [] := by intro he; rw [he] at hp; revert hp; decide
    obtain ⟨ds, hds, hdig⟩ := expDigits_result h
    refine ⟨s.headI :: ds, ?_, ?_⟩
    · conv_lhs => rw [← headI_cons_tail hne]
      rw [List.cons_append, ← hds]
    · intro c hc
      rcases List.mem_cons.mp hc with rfl | hm
      · rw [hp]; decide
      · simp [numChar, hdig c hm]
  · split at h
    · rename_i hp
      have hne : s ≠ [] := by intro he; rw [he] at hp; revert hp; decide
      obtain ⟨ds, hds, hdig⟩ := expDigits_result h
      refine ⟨s.headI :: ds, ?_, ?_⟩
      · conv_lhs => rw [← headI_cons_tail hne]
        rw [List.cons_append, ← hds]
      · intro c hc
        rcases List.mem_cons.mp hc with rfl | hm
        · rw [hp]; decide
        · simp [numChar, hdig c hm]
    · obtain ⟨ds, hds, hdig⟩ := expDigits_result h
      exact ⟨ds, hds, fun c hc => by simp [numChar, hdig c hc]⟩

theorem parseExpPart_result {q : ℚ} {s : JStr} {q2 : ℚ} {r : JStr}
    (h : parseExpPart q s = some (q2, r)) :
    ∃ pre, s = pre ++ r ∧ ∀ c ∈ pre, numChar c = true := by
  unfold parseExpPart at h
  split at h
  · rename_i hp
    have hne : s ≠ [] := by
      intro he
      rw [he] at hp
      rcases hp with hp | hp <;> revert hp <;> decide
    obtain ⟨pre, hpre, hchar⟩ := parseExpTail_result h
    refine ⟨s.headI :: pre, ?_, ?_⟩
    · conv_lhs => rw [← headI_cons_tail hne]
      rw [List.cons_append, ← hpre]
    · intro c hc
      rcases List.mem_cons.mp hc with rfl | hm
      · rcases hp with hp | hp <;> rw [hp] <;> decide
      · exact hchar c hm
  · simp only [Option.some.injEq, Prod.mk.injEq] at h
    exact ⟨[], by rw [h.2]; rfl, by simp⟩

theorem parseDec_result {s : JStr} {q : ℚ} {r : JStr}
    (h : parseDec s = some (q, r)) :
    ∃ pre, s = pre ++ r ∧ ∀ c ∈ pre, numChar c = true := by
  unfold parseDec at h
  obtain ⟨hs, hds⟩ := takeDigits_eq s
  split at h
  · rename_i hdot
    have htne : (takeDigits s).2 ≠ [] := by
      intro he
      rw [he] at hdot
      revert hdot; decide
    have hdot2 : (takeDigits s).2 = '.' :: (takeDigits s).2.tail := by
      conv_lhs => rw [← headI_cons_tail htne]
      congr 1
      unfold startsDot at hdot
      simpa using hdot
    split at h
    · cases h
    · obtain ⟨hs2, hds2⟩ := takeDigits_eq (takeDigits s).2.tail
      obtain ⟨pre, hpre, hchar⟩ := parseExpPart_result h
      refine ⟨(takeDigits s).1 ++ '.' ::
        ((takeDigits (takeDigits s).2.tail).1 ++ pre), ?_, ?_⟩
      · conv_lhs => rw [hs, hdot2, hs2, hpre]
        simp [List.append_assoc]
      · intro c hc
        rcases List.mem_append.mp hc with hm | hm
        · simp [numChar, hds c hm]
        · rcases List.mem_cons.mp hm with rfl | hm2
          · decide
          · rcases List.mem_append.mp hm2 with hm3 | hm3
            · simp [numChar, hds2 c hm3]
            · exact hchar c hm3
  · split at h
    · cases h
    · obtain ⟨pre, hpre, hchar⟩ := parseExpPart_result h
      refine ⟨(takeDigits s).1 ++ pre, ?_, ?_⟩
      · conv_lhs => rw [hs, hpre]
        simp [List.append_assoc]
      · intro c hc
        rcases List.mem_append.mp hc with hm | hm
        · simp [numChar, hds c hm]
        · exact hchar c hm

theorem decFull_no_colon {s : JStr} {q : ℚ} (h : decFull s = some q) :
    ':' ∉ s := by
  unfold decFull at h
  split at h
  · rename_i q2 heq
    obtain ⟨pre, hpre, hchar⟩ := parseDec_result heq
    intro hm
    rw [hpre] at hm
    simp only [List.append_nil] at hm
    have := hchar ':' hm
    revert this; decide
  · cases h

theorem mem_trimWs {s : JStr} {c : Char} (hm : c ∈ s) (hws : isWsChar c = false) :
    c ∈ trimWs s := by
  have heq : trimWs s = (s.dropWhile isWsChar).rdropWhile isWsChar := by
    unfold trimWs List.rdropWhile
    rfl
  have h1 : c ∈ s.dropWhile isWsChar := by
    rcases List.mem_append.mp
      ((List.takeWhile_append_dropWhile isWsChar s) ▸ hm) with
      hmt | hmd
    · rw [List.mem_takeWhile_imp hmt] at hws; cases hws
    · exact hmd
  have hsplitr : (s.dropWhile isWsChar).rdropWhile isWsChar ++
      (s.dropWhile isWsChar).rtakeWhile isWsChar = s.dropWhile isWsChar := by
    show (List.dropWhile isWsChar (s.dropWhile isWsChar).reverse).reverse ++
      (List.takeWhile isWsChar (s.dropWhile isWsChar).reverse).reverse = _
    rw [← List.reverse_append, List.takeWhile_append_dropWhile,
      List.reverse_reverse]
  rw [heq]
  rcases List.mem_append.mp (hsplitr ▸ h1) with hmr | hmt
  · exact hmr
  · rw [List.mem_rtakeWhile_imp hmt] at hws; cases hws

theorem jsToNumber_colon {s : JStr} (hm : ':' ∈ s) : jsToNumber s = none := by
  have hmt : ':' ∈ trimWs s := mem_trimWs hm (by decide)
  have hne : trimWs s ≠ [] := by intro he; rw [he] at hmt; cases hmt
  unfold jsToNumber
  rw [if_neg (by
    simp only [List.isEmpty_iff]
    intro he; rw [he] at hmt; cases hmt)]
  by_cases hp : (trimWs s).headI = '+'
  · rw [if_pos hp]
    cases hdf : decFull (trimWs s).tail with
    | none => rfl
    | some q =>
      exfalso
      have hx : ':' ∈ (trimWs s).tail := by
        have hht := headI_cons_tail hne
        rw [← hht] at hmt
        rcases List.mem_cons.mp hmt with hx | hx
        · rw [hp] at hx; cases hx
        · exact hx
      exact decFull_no_colon hdf hx
  · rw [if_neg hp]
    by_cases hq : (trimWs s).headI = '-'
    · rw [if_pos hq]
      cases hdf : decFull (trimWs s).tail with
      | none => rfl
      | some q =>
        exfalso
        have hx : ':' ∈ (trimWs s).tail := by
          have hht := headI_cons_tail hne
          rw [← hht] at hmt
          rcases List.mem_cons.mp hmt with hx | hx
          · rw [hq] at hx; cases hx
          · exact hx
        exact decFull_no_colon hdf hx
    · rw [if_neg hq]
      cases hrp : radixPrefix (trimWs s) with
      | none =>
        cases hdf : decFull (trimWs s) with
        | none => rfl
        | some q => exact absurd (decFull_no_colon hdf hmt) (by simp)
      | some p =>
        show radixFull p.1 p.2 = none
        unfold radixPrefix at hrp
        split at hrp
        · rename_i hcond
          simp only [Option.map_eq_some'] at hrp
          obtain ⟨b, hb, hbp⟩ := hrp
          have hble : b ≤ 16 := by
            unfold radixBase at hb
            split at hb
            · cases hb; omega
            · split at hb
              · cases hb; omega
              · split at hb
                · cases hb; omega
                · cases hb
          have htne : (trimWs s).tail ≠ [] := by
            intro he
            have h2 := hcond.1
            rw [← headI_cons_tail hne, he] at h2
            simp at h2
          have hmem2 : ':' ∈ p.2 := by
            rw [← hbp]
            show ':' ∈ (trimWs s).tail.tail
            have h1 := headI_cons_tail hne
            have h2 := headI_cons_tail htne
            rw [← h1] at hmt
            rcases List.mem_cons.mp hmt with hx | hx
            · rw [hcond.2] at hx; cases hx
            · rw [← h2] at hx
              rcases List.mem_cons.mp hx with hy | hy
              · exfalso
                rw [← hy] at hb
                rw [(by decide : radixBase ':' = none)] at hb
                cases hb
              · exact hy
          unfold radixFull
          rw [if_neg]
          rintro ⟨-, hall⟩
          have hv := hall ':' hmem2
          rw [(by decide : digitValB ':' = 99)] at hv
          have hp1 : p.1 = b := by rw [← hbp]
          omega
        · cases hrp

theorem colon_mem_of_noSep_false {s : JStr} (h : noSep s = false) : ':' ∈ s := by
  induction s using noSep.induct with
  | case1 rest => simp
  | case2 c rest hne ih =>
    rw [noSep.eq_2 c rest hne] at h
    exact List.mem_cons_of_mem c (ih h)
  | case3 => simp [noSep] at h

/-- C2 (amended): `encode` escapes the delimiter only in the activity and
in a top-level text value; such text survives the round trip whenever it
has no backslash, no triple-colon run, no trailing colon, and is not
brace/bracket delimited.  (Text leaves inside structured values or
contexts are joined unescaped and need not survive — see the
counterexample.) -/
theorem c2_escaping_amended (now : Nat) (a s : JStr)
    (ha : a ≠ []) (hasafe : safeField a)
    (hs : s ≠ []) (hssafe : safeField s)
    (hsep : noSep s = false)
    (hnotobj : ¬(startsWithC s '\x7b' = true ∧ endsWithC s '\x7d' = true))
    (hnotarr : ¬(startsWithC s '[' = true ∧ endsWithC s ']' = true)) :
    splitCols (encode now a (.str s)) =
      [escColons a, natToString now, escColons s, CURRENT_VERSION] ∧
    unescColons (escColons s) = s ∧
    ∃ r, decode (encode now a (.str s)) = some r ∧ r.activity = a ∧
      r.value = .str s := by
  have hV : encodeValue (.str s) 0 = escColons s := rfl
  have hVne : encodeValue (.str s) 0 ≠ [] := by
    rw [hV, Ne, escColons_eq_nil_iff]; exact hs
  have hVsafe : partSafe (encodeValue (.str s) 0) := by
    rw [hV]
    exact ⟨(escColons_safe hssafe).1, (escColons_safe hssafe).2⟩
  obtain ⟨-, hsplit⟩ := encode_noctx_split now a (.str s) ha hasafe hVne hVsafe
  refine ⟨by rw [← hV]; exact hsplit, unescColons_escColons hssafe, ?_⟩
  refine ⟨_, decode_encode_noctx now a _ ha hasafe hVne hVsafe, rfl, ?_, ⟩
  show decodeValueField (unescColons (encodeValue (.str s) 0)) = .str s
  rw [hV, unescColons_escColons hssafe]
  unfold decodeValueField
  rw [if_neg (by
    intro hcond
    rw [Bool.and_eq_true] at hcond
    exact hnotobj ⟨hcond.1, hcond.2⟩)]
  rw [if_neg (by
    intro hcond
    rw [Bool.and_eq_true] at hcond
    exact hnotarr ⟨hcond.1, hcond.2⟩)]
  rw [if_neg (by
    rw [jsToNumber_colon (colon_mem_of_noSep_false hsep)]
    simp)]

/-- Witness for C2's amended theorem at a concrete input. -/
theorem c2_witness :
    splitCols (encode 5 (cs "act") (.str (cs "a::b"))) =
      [escColons (cs "act"), natToString 5, escColons (cs "a::b"),
        CURRENT_VERSION] ∧
    unescColons (escColons (cs "a::b")) = cs "a::b" ∧
    ∃ r, decode (encode 5 (cs "act") (.str (cs "a::b"))) = some r ∧
      r.activity = cs "act" ∧ r.value = .str (cs "a::b") :=
  c2_escaping_amended 5 (cs "act") (cs "a::b") (by decide) (by decide)
    (by decide) (by decide) (by decide) (by decide) (by decide)

/-- C2 counterexample: a text leaf inside the context is not escaped by
`encode`, so the delimiter inside it corrupts the split and the text does
not survive the round trip (the decoded context is a truncated raw
string, not the original map). -/
theorem c2_counterexample :
    (decode (encode 5 (cs "act") (.num ((1 : ℤ) : ℚ))
        (.obj [(cs "a", .str (cs "x::y"))]))).map (fun r => r.context) =
      some (.str (cs "\x7b\"a\":\"x")) ∧
    JVal.str (cs "\x7b\"a\":\"x") ≠ .obj [(cs "a", .str (cs "x::y"))] := by
  constructor
  · decide
  · decide

mutual

/-- Model of `HDDIntelligence.calculateImpact` (`src/hdd-api.js`):
number → `min(|x|, 1000)`; text → `min(length × 0.1, 100)`; boolean →
0/1; `Date` → 1; array → left-fold of impacts over the first 100
elements; plain object → left-fold over the first 50 property values;
`undefined` falls to the `default` arm (1); `null` reaches
`Object.values(null)`, which throws, and the surrounding `try` returns 1. -/
def calculateImpact : JVal → ℚ
  | .num x => min |x| 1000
  | .str s => min (qmul (s.length : ℚ) (Rat.divInt 1 10)) 100
  | .bool b => if b then 1 else 0
  | .arr xs => impactFoldArr 0 100 xs
  | .date _ => 1
  | .obj fs => impactFoldObj 0 50 fs
  | .null => 1
  | .undef => 1

/-- The `slice(0, 100).reduce((sum, item) => sum + impact(item), 0)`
accumulation over array elements. -/
def impactFoldArr : ℚ → Nat → List JVal → ℚ
  | acc, _, [] => acc
  | acc, 0, _ => acc
  | acc, n + 1, v :: vs => impactFoldArr (qadd acc (calculateImpact v)) n vs

/-- The `slice(0, 50).reduce` accumulation over object property values. -/
def impactFoldObj : ℚ → Nat → List (JStr × JVal) → ℚ
  | acc, _, [] => acc
  | acc, 0, _ => acc
  | acc, n + 1, f :: fs => impactFoldObj (qadd acc (calculateImpact f.2)) n fs

end

theorem impactFoldArr_nonneg (vs : List JVal) :
    ∀ (n : Nat) (acc : ℚ), 0 ≤ acc →
      (∀ u ∈ vs, 0 ≤ calculateImpact u) → 0 ≤ impactFoldArr acc n vs := by
  induction vs with
  | nil => intro n acc ha _; cases n <;> exact ha
  | cons v vs ih =>
    intro n acc ha hall
    cases n with
    | zero => exact ha
    | succ n =>
      show 0 ≤ impactFoldArr (qadd acc (calculateImpact v)) n vs
      apply ih n _ _ (fun u hu => hall u (List.mem_cons_of_mem v hu))
      rw [qadd_eq]
      have := hall v (by simp)
      linarith

theorem impactFoldObj_nonneg (fs : List (JStr × JVal)) :
    ∀ (n : Nat) (acc : ℚ), 0 ≤ acc →
      (∀ f ∈ fs, 0 ≤ calculateImpact f.2) → 0 ≤ impactFoldObj acc n fs := by
  induction fs with
  | nil => intro n acc ha _; cases n <;> exact ha
  | cons f fs ih =>
    intro n acc ha hall
    cases n with
    | zero => exact ha
    | succ n =>
      show 0 ≤ impactFoldObj (qadd acc (calculateImpact f.2)) n fs
      apply ih n _ _ (fun g hg => hall g (List.mem_cons_of_mem f hg))
      rw [qadd_eq]
      have := hall f (by simp)
      linarith

theorem calculateImpact_nonneg_aux :
    ∀ (k : Nat) (v : JVal), sizeOf v ≤ k → 0 ≤ calculateImpact v := by
  intro k
  induction k with
  | zero =>
    intro v hv
    cases v <;> simp at hv
  | succ k ih =>
    intro v hv
    cases v with
    | null => show (0 : ℚ) ≤ 1; norm_num
    | undef => show (0 : ℚ) ≤ 1; norm_num
    | num x => exact le_min (abs_nonneg x) (by norm_num)
    | str s =>
      show 0 ≤ min (qmul (s.length : ℚ) (Rat.divInt 1 10)) 100
      apply le_min _ (by norm_num)
      rw [qmul_eq]
      have h10 : (Rat.divInt 1 10) = (1 : ℚ) / 10 := Rat.divInt_eq_div 1 10
      rw [h10]
      positivity
    | bool b => cases b <;> simp [calculateImpact]
    | date ms => show (0 : ℚ) ≤ 1; norm_num
    | arr xs =>
      show 0 ≤ impactFoldArr 0 100 xs
      apply impactFoldArr_nonneg xs 100 0 le_rfl
      intro u hu
      apply ih
      have h1 := List.sizeOf_lt_of_mem hu
      have h2 : sizeOf (JVal.arr xs) = 1 + sizeOf xs := by simp
      omega
    | obj fs =>
      show 0 ≤ impactFoldObj 0 50 fs
      apply impactFoldObj_nonneg fs 50 0 le_rfl
      intro f hf
      apply ih
      have h1 := List.sizeOf_lt_of_mem hf
      have h2 : sizeOf (JVal.obj fs) = 1 + sizeOf fs := by simp
      have h3 : sizeOf f.2 < sizeOf f := by
        obtain ⟨a, b⟩ := f
        simp
      omega

theorem calculateImpact_nonneg (v : JVal) : 0 ≤ calculateImpact v :=
  calculateImpact_nonneg_aux (sizeOf v) v le_rfl

/-- C9: `calculateImpact` returns 1 for `null` and for `undefined` (so a
null leaf inside a list or map contributes 1 to the running sum), the
variant rules hold as stated, and the result is always nonnegative. -/
theorem c9_impact_rules :
    calculateImpact .null = 1 ∧ calculateImpact .undef = 1 ∧
    (∀ x : ℚ, calculateImpact (.num x) = min |x| 1000) ∧
    (∀ s : JStr, calculateImpact (.str s) =
      min ((s.length : ℚ) * (1 / 10)) 100) ∧
    (∀ b, calculateImpact (.bool b) = if b then 1 else 0) ∧
    (∀ ms, calculateImpact (.date ms) = 1) ∧
    (∀ xs, calculateImpact (.arr xs) = impactFoldArr 0 100 xs) ∧
    (∀ fs, calculateImpact (.obj fs) = impactFoldObj 0 50 fs) ∧
    (∀ (acc : ℚ) (n : Nat) (vs : List JVal),
      impactFoldArr acc (n + 1) (.null :: vs) = impactFoldArr (acc + 1) n vs) ∧
    (∀ (acc : ℚ) (n : Nat) (k : JStr) (fs : List (JStr × JVal)),
      impactFoldObj acc (n + 1) ((k, .null) :: fs) =
        impactFoldObj (acc + 1) n fs) ∧
    (∀ v, 0 ≤ calculateImpact v) := by
  refine ⟨rfl, rfl, fun x => rfl, ?_, fun b => rfl, fun ms => rfl,
    fun xs => rfl, fun fs => rfl, ?_, ?_, calculateImpact_nonneg⟩
  · intro s
    show min (qmul (s.length : ℚ) (Rat.divInt 1 10)) 100 = _
    rw [qmul_eq, Rat.divInt_eq_div]
    norm_num
  · intro acc n vs
    show impactFoldArr (qadd acc (calculateImpact .null)) n vs = _
    rw [qadd_eq]
    rfl
  · intro acc n k fs
    show impactFoldObj (qadd acc (calculateImpact .null)) n fs = _
    rw [qadd_eq]
    rfl

/-- An entry of a plain-object node as seen by
`HDDIntelligence.measureContextComplexity`: either a leaf (a primitive,
an array, or a `Date` — none of which pass the push filter
`value && typeof value === 'object' && !Array.isArray(value) && !(value instanceof Date)`)
or a reference to another plain-object node. -/
inductive SEntry where
  | leaf
  | objRef (id : Nat)
deriving DecidableEq

/-- A heap of plain-object nodes: each node id maps to its list of
property values in `Object.keys` enumeration order.  `WeakSet` identity
is node-id equality; cyclic structures are heaps where a node
(transitively) references itself. -/
abbrev CtxStore := Nat → List SEntry

/-- The `stack.push({ obj: value, depth: depth + 1 })` calls made while
iterating a node's keys in order. -/
def childPushes (depth : Nat) : List SEntry → List (Nat × Nat)
  | [] => []
  | .leaf :: es => childPushes depth es
  | .objRef j :: es => (j, depth + 1) :: childPushes depth es

/-- The `while (stack.length > 0 && iterationCount < MAX_ITERATIONS)`
loop of `measureContextComplexity`.  The list head is the JS stack top
(`stack.pop()`); pushes therefore arrive reversed at the head.  Returns
the accumulated complexity together with the remaining iteration budget. -/
def complexityLoop (store : CtxStore) (maxDepth : Nat) :
    List (Nat × Nat) → List Nat → Nat → ℚ → ℚ × Nat
  | [], _, fuel, c => (c, fuel)
  | _ :: _, _, 0, c => (c, 0)
  | (id, depth) :: rest, visited, fuel + 1, c =>
    if maxDepth < depth then
      complexityLoop store maxDepth rest visited fuel (qadd c 10)
    else if id ∈ visited then
      complexityLoop store maxDepth rest visited fuel (qadd c 5)
    else
      complexityLoop store maxDepth
        ((childPushes depth (store id)).reverse ++ rest) (id :: visited) fuel
        (qadd c (qadd 1 (min (qmul ((store id).length : ℚ) (Rat.divInt 1 2)) 20)))

/-- Model of `HDDIntelligence.measureContextComplexity`: `none` stands
for a context failing `!context || typeof context !== 'object'` (score
0); otherwise the node graph is traversed from `root` with a 1000
iteration cap and the score is clamped by `Math.min(complexity, 100)`. -/
def measureContextComplexity (store : CtxStore) (context : Option Nat)
    (maxDepth : Nat := 8) : ℚ :=
  match context with
  | none => 0
  | some root => min (complexityLoop store maxDepth [(root, 0)] [] 1000 0).1 100

/-- Number of loop iterations actually executed. -/
def complexitySteps (store : CtxStore) (context : Option Nat)
    (maxDepth : Nat := 8) : Nat :=
  match context with
  | none => 0
  | some root => 1000 - (complexityLoop store maxDepth [(root, 0)] [] 1000 0).2

/-- A flat (unnested) map with `n` keys, every value a leaf. -/
def flatStore (n : Nat) : CtxStore := fun _ => List.replicate n .leaf

/-- Complexity score of the flat map with `n` keys. -/
def flatScore (n : Nat) : ℚ := measureContextComplexity (flatStore n) (some 0) 8

/-- A one-node heap whose single property points back at the node itself. -/
def cycStore : CtxStore := fun i => [.objRef i]

theorem complexityLoop_fst_nonneg (store : CtxStore) (md : Nat) :
    ∀ (fuel : Nat) (stack : List (Nat × Nat)) (visited : List Nat) (c : ℚ),
      0 ≤ c → 0 ≤ (complexityLoop store md stack visited fuel c).1 := by
  intro fuel
  induction fuel with
  | zero =>
    intro stack visited c hc
    cases stack with
    | nil => exact hc
    | cons e rest => exact hc
  | succ fuel ih =>
    intro stack visited c hc
    cases stack with
    | nil => exact hc
    | cons e rest =>
      obtain ⟨id, depth⟩ := e
      simp only [complexityLoop]
      split_ifs with h1 h2
      · exact ih _ _ _ (by rw [qadd_eq]; linarith)
      · exact ih _ _ _ (by rw [qadd_eq]; linarith)
      · apply ih
        rw [qadd_eq, qadd_eq, qmul_eq, Rat.divInt_eq_div]
        have hmin : (0 : ℚ) ≤ min (((store id).length : ℚ) * (1 / 2)) 20 :=
          le_min (by positivity) (by norm_num)
        linarith

theorem complexityLoop_snd_le (store : CtxStore) (md : Nat) :
    ∀ (fuel : Nat) (stack : List (Nat × Nat)) (visited : List Nat) (c : ℚ),
      (complexityLoop store md stack visited fuel c).2 ≤ fuel := by
  intro fuel
  induction fuel with
  | zero =>
    intro stack visited c
    cases stack with
    | nil => exact le_rfl
    | cons e rest => exact le_rfl
  | succ fuel ih =>
    intro stack visited c
    cases stack with
    | nil => exact le_rfl
    | cons e rest =>
      obtain ⟨id, depth⟩ := e
      simp only [complexityLoop]
      split_ifs with h1 h2
      · exact le_trans (ih _ _ _) (Nat.le_succ fuel)
      · exact le_trans (ih _ _ _) (Nat.le_succ fuel)
      · exact le_trans (ih _ _ _) (Nat.le_succ fuel)

theorem childPushes_replicate (d n : Nat) :
    childPushes d (List.replicate n .leaf) = [] := by
  induction n with
  | zero => rfl
  | succ n ih => simpa [List.replicate, childPushes] using ih

theorem flatScore_eq (n : Nat) : flatScore n = 1 + min ((n : ℚ) / 2) 20 := by
  have hstep : complexityLoop (flatStore n) 8 [(0, 0)] [] 1000 0 =
      (qadd 0 (qadd 1 (min (qmul ((n : ℚ)) (Rat.divInt 1 2)) 20)), 999) := by
    simp only [complexityLoop]
    rw [if_neg (by omega), if_neg (by simp)]
    show complexityLoop (flatStore n) 8
      ((childPushes 0 (List.replicate n .leaf)).reverse ++ []) [0] 999 _ = _
    rw [childPushes_replicate]
    simp only [List.reverse_nil, List.nil_append, complexityLoop]
    congr 1
    simp [flatStore]
  have hval : qadd 0 (qadd 1 (min (qmul ((n : ℚ)) (Rat.divInt 1 2)) 20)) =
      1 + min ((n : ℚ) / 2) 20 := by
    rw [qadd_eq, qadd_eq, qmul_eq, Rat.divInt_eq_div]
    ring_nf
  have hle : (1 : ℚ) + min ((n : ℚ) / 2) 20 ≤ 100 := by
    have := min_le_right ((n : ℚ) / 2) 20
    linarith
  show min (complexityLoop (flatStore n) 8 [(0, 0)] [] 1000 0).1 100 = _
  rw [hstep]
  show min (qadd 0 (qadd 1 (min (qmul ((n : ℚ)) (Rat.divInt 1 2)) 20))) 100 = _
  rw [hval, min_eq_left hle]

/-- C5: the complexity score always lies in `[0, 100]`, and on a flat
(unnested) map adding one more key never decreases the score (the score
of an `n`-key flat map is `1 + min(n / 2, 20)`). -/
theorem c5_complexity_bounds :
    (∀ (store : CtxStore) (ctx : Option Nat) (md : Nat),
      0 ≤ measureContextComplexity store ctx md ∧
        measureContextComplexity store ctx md ≤ 100) ∧
    (∀ n : Nat, flatScore n = 1 + min ((n : ℚ) / 2) 20) ∧
    (∀ n : Nat, flatScore n ≤ flatScore (n + 1)) := by
  refine ⟨?_, flatScore_eq, ?_⟩
  · intro store ctx md
    match ctx with
    | none => exact ⟨le_rfl, (by norm_num : (0 : ℚ) ≤ 100)⟩
    | some root =>
      constructor
      · exact le_min (complexityLoop_fst_nonneg store md 1000 [(root, 0)] [] 0 le_rfl)
          (by norm_num)
      · exact min_le_right _ _
  · intro n
    rw [flatScore_eq, flatScore_eq]
    have hmono : min ((n : ℚ) / 2) 20 ≤ min (((n : Nat) + 1 : ℚ) / 2) 20 := by
      apply min_le_min _ le_rfl
      have : ((n : ℚ)) ≤ ((n : Nat) + 1 : ℚ) := by norm_num
      linarith
    push_cast at hmono ⊢
    linarith

/-- C6: `measureContextComplexity` terminates on every input, including
cyclic ones: a revisited node at admissible depth adds a flat 5 and the
traversal moves on; the remaining budget never exceeds the starting
budget, so at most 1000 iterations run; and the self-referential
one-node heap yields the finite score `13/2` after exactly 2 iterations. -/
theorem c6_cycle_termination :
    (∀ (store : CtxStore) (md id depth : Nat) (rest : List (Nat × Nat))
        (visited : List Nat) (fuel : Nat) (c : ℚ),
      depth ≤ md → id ∈ visited →
      complexityLoop store md ((id, depth) :: rest) visited (fuel + 1) c =
        complexityLoop store md rest visited fuel (c + 5)) ∧
    (∀ (store : CtxStore) (md fuel : Nat) (stack : List (Nat × Nat))
        (visited : List Nat) (c : ℚ),
      (complexityLoop store md stack visited fuel c).2 ≤ fuel) ∧
    (∀ (store : CtxStore) (ctx : Option Nat) (md : Nat),
      complexitySteps store ctx md ≤ 1000) ∧
    measureContextComplexity cycStore (some 0) 8 = Rat.divInt 13 2 ∧
    complexitySteps cycStore (some 0) 8 = 2 := by
  refine ⟨?_, ?_, ?_, by decide, by decide⟩
  · intro store md id depth rest visited fuel c hd hm
    simp only [complexityLoop]
    rw [if_neg (by omega), if_pos hm, qadd_eq]
  · intro store md fuel stack visited c
    exact complexityLoop_snd_le store md fuel stack visited c
  · intro store ctx md
    match ctx with
    | none => exact Nat.zero_le 1000
    | some root => exact Nat.sub_le 1000 _

/-- Instantiation of the revisit-step rule of `c6_cycle_termination` at
the state the cyclic example reaches after its first iteration. -/
theorem c6_witness :
    complexityLoop cycStore 8 [(0, 1)] [0] 999 (Rat.divInt 3 2) =
      complexityLoop cycStore 8 [] [0] 998 (Rat.divInt 3 2 + 5) :=
  c6_cycle_termination.1 cycStore 8 0 1 [] [0] 998 (Rat.divInt 3 2)
    (by decide) (by decide)

/-- `Math.round`: round half toward positive infinity. -/
def jsRound (q : ℚ) : ℤ := ⌊qadd q (Rat.divInt 1 2)⌋

/-- `Math.round(q * 100) / 100`: two-decimal rounding as used for
probabilities and confidences. -/
def jsRound2 (q : ℚ) : ℚ := Rat.divInt (jsRound (qmul q 100)) 100

/-- The consecutive pairs `(activities[i], activities[i+1])` visited by
the transition-matrix loop. -/
def zipConsec : List JStr → List (JStr × JStr)
  | [] => []
  | [_] => []
  | a :: b :: rest => (a, b) :: zipConsec (b :: rest)

/-- Ordered-association-list lookup (JS string-keyed object access). -/
def lookupTbl {α : Type} : List (JStr × α) → JStr → Option α
  | [], _ => none
  | (k, x) :: rest, key => if k = key then some x else lookupTbl rest key

/-- `counts[to] = (counts[to] || 0) + 1` on an insertion-ordered object. -/
def bumpInner : List (JStr × Nat) → JStr → List (JStr × Nat)
  | [], tgt => [(tgt, 1)]
  | (k, n) :: rest, tgt =>
    if k = tgt then (k, n + 1) :: rest else (k, n) :: bumpInner rest tgt

/-- `transitionMatrix[from][to] = (… || 0) + 1`, creating the inner
object when absent, preserving key insertion order. -/
def bumpOuter : List (JStr × List (JStr × Nat)) → JStr → JStr →
    List (JStr × List (JStr × Nat))
  | [], fr, tgt => [(fr, [(tgt, 1)])]
  | (k, inner) :: rest, fr, tgt =>
    if k = fr then (k, bumpInner inner tgt) :: rest
    else (k, inner) :: bumpOuter rest fr tgt

/-- The transition matrix built from the window's activity sequence. -/
def buildTransitions (acts : List JStr) : List (JStr × List (JStr × Nat)) :=
  (zipConsec acts).foldl (fun m p => bumpOuter m p.1 p.2) []

/-- `Object.values(possibleNext).reduce((sum, count) => sum + count, 0)`. -/
def innerTotal (inner : List (JStr × Nat)) : Nat :=
  inner.foldl (fun s p => s + p.2) 0

/-- The argmax loop over `Object.entries(possibleNext)`: strictly greater
probability updates the best candidate, so ties keep the first-seen
maximum. -/
def argmaxFold (total : Nat) :
    List (JStr × Nat) → ℚ → Option JStr → ℚ × Option JStr
  | [], mp, ml => (mp, ml)
  | (a, c) :: rest, mp, ml =>
    if mp < qdiv (c : ℚ) (total : ℚ) then
      argmaxFold total rest (qdiv (c : ℚ) (total : ℚ)) (some a)
    else argmaxFold total rest mp ml

/-- `HDDIntelligence._findDominantActivity`: running recount with strict
improvement, starting from `activities[0]`. -/
def domFold : List (JStr × Nat) → Nat → JStr → List JStr → JStr
  | _, _, dom, [] => dom
  | counts, maxC, dom, a :: rest =>
    if maxC < (lookupTbl (bumpInner counts a) a).getD 0 then
      domFold (bumpInner counts a) ((lookupTbl (bumpInner counts a) a).getD 0)
        a rest
    else domFold (bumpInner counts a) maxC dom rest

def findDominant (acts : List JStr) : JStr := domFold [] 0 (acts.headD []) acts

/-- `HDDIntelligence._determinePatternType` (diversity measured on the
set of distinct activities). -/
def patternType (acts : List JStr) (p : ℚ) : JStr :=
  if Rat.divInt 4 5 < p then cs "strong_sequence"
  else if Rat.divInt 3 5 < p then cs "moderate_sequence"
  else if Rat.divInt 2 5 < p then cs "weak_sequence"
  else
    if Rat.divInt 7 10 < qdiv (acts.dedup.length : ℚ) (acts.length : ℚ) then
      cs "high_diversity"
    else if qdiv (acts.dedup.length : ℚ) (acts.length : ℚ) < Rat.divInt 3 10 then
      cs "repetitive"
    else cs "random"

/-- Stable insertion of one scored alternative into a probability-descending
list (equal scores keep earlier elements first, matching the stable JS
`sort((a, b) => b.probability - a.probability)`). -/
def insertDesc (x : JStr × ℚ) : List (JStr × ℚ) → List (JStr × ℚ)
  | [] => [x]
  | y :: ys => if y.2 < x.2 then x :: y :: ys else y :: insertDesc x ys

/-- Stable descending sort by probability. -/
def sortDesc (xs : List (JStr × ℚ)) : List (JStr × ℚ) :=
  xs.foldr insertDesc []

/-- The result shape of `detectActivityPattern`: optional fields model
the different object literals the source returns from its branches. -/
structure Prediction where
  next : Option JStr
  confidence : ℚ
  pattern : JStr
  validEventsField : Option Nat
  dominantActivity : Option JStr
  activityCount : Option Nat
  alternatives : Option (List (JStr × ℚ))
deriving DecidableEq

/-- The decodable in-window events: the trailing `lookback` events whose
`decode` succeeds with a truthy (nonempty) activity. -/
def validWindow (events : List JStr) (lookback : Nat) : List DecodedRecord :=
  (events.drop (events.length - lookback)).filterMap fun e =>
    match decode e with
    | some r => if r.activity = [] then none else some r
    | none => none

/-- The `no_transitions` result object. -/
def noTransitionsResult (acts : List JStr) : Prediction :=
  ⟨none, 0, cs "no_transitions", none, some (findDominant acts),
    some acts.length, none⟩

/-- The success branch of `detectActivityPattern`, given the entry of the
transition matrix keyed by the last activity. -/
def predictionSuccess (acts : List JStr) (inner : List (JStr × Nat)) :
    Prediction :=
  ⟨(argmaxFold (innerTotal inner) inner 0 none).2,
    jsRound2 (argmaxFold (innerTotal inner) inner 0 none).1,
    patternType acts (argmaxFold (innerTotal inner) inner 0 none).1,
    none, some (findDominant acts), some acts.length,
    some ((sortDesc (inner.map fun p =>
      (p.1, jsRound2 (qdiv (p.2 : ℚ) (innerTotal inner : ℚ))))).take 3)⟩

/-- The branch of `detectActivityPattern` past the two data guards. -/
def detectCore (acts : List JStr) : Prediction :=
  match lookupTbl (buildTransitions acts) (acts.getLastD []) with
  | none => noTransitionsResult acts
  | some inner =>
    if inner.length = 0 then noTransitionsResult acts
    else predictionSuccess acts inner

/-- Model of `HDDIntelligence.detectActivityPattern`. -/
def detectActivityPattern (events : List JStr) (lookback : Nat := 10) :
    Prediction :=
  if events.length < 3 then
    ⟨none, 0, cs "insufficient_data", some events.length, none, none, none⟩
  else
    let valids := validWindow events lookback
    if valids.length < 2 then
      ⟨none, 0, cs "no_valid_activities", some valids.length, none, none, none⟩
    else detectCore (valids.map (fun r => r.activity))

/-- The lookback sanitization of `HDDApi.predictNext`:
`options.lookback && options.lookback >= 3 && options.lookback <= 50`,
else 10 (`0` is falsy). -/
def sanitizeLookback : Option Int → Nat
  | none => 10
  | some lb => if lb ≠ 0 ∧ 3 ≤ lb ∧ lb ≤ 50 then lb.toNat else 10

/-- Model of `HDDApi.predictNext`. -/
def predictNext (events : List JStr) (lookback : Option Int := none) :
    Prediction :=
  detectActivityPattern events (sanitizeLookback lookback)

/-- The in-window activity sequence feeding the transition matrix. -/
def predActs (events : List JStr) (lb : Option Int) : List JStr :=
  (validWindow events (sanitizeLookback lb)).map (fun r => r.activity)

theorem lookupTbl_eq_none {α : Type} (tbl : List (JStr × α)) (k : JStr) :
    lookupTbl tbl k = none ↔ k ∉ tbl.map Prod.fst := by
  induction tbl with
  | nil => simp [lookupTbl]
  | cons e rest ih =>
    obtain ⟨k0, x⟩ := e
    by_cases h : k0 = k
    · subst h
      rw [lookupTbl, if_pos rfl]
      constructor
      · intro hc; exact Option.noConfusion hc
      · intro hc
        exact absurd (List.mem_map_of_mem Prod.fst (List.mem_cons_self (k0, x) rest)) hc
    · rw [lookupTbl, if_neg h, ih]
      simp only [List.map_cons, List.mem_cons]
      constructor
      · intro hnm hor
        rcases hor with rfl | hmem
        · exact h rfl
        · exact hnm hmem
      · intro hnm hmem
        exact hnm (Or.inr hmem)

theorem lookupTbl_mem {α : Type} {tbl : List (JStr × α)} {k : JStr} {x : α}
    (h : lookupTbl tbl k = some x) : (k, x) ∈ tbl := by
  induction tbl with
  | nil => simp [lookupTbl] at h
  | cons e rest ih =>
    obtain ⟨k0, x0⟩ := e
    by_cases hk : k0 = k
    · subst hk
      rw [lookupTbl, if_pos rfl] at h
      obtain rfl := Option.some_injective _ h
      exact List.mem_cons_self _ _
    · rw [lookupTbl, if_neg hk] at h
      exact List.mem_cons_of_mem _ (ih h)

theorem mem_keys_bumpOuter {tbl : List (JStr × List (JStr × Nat))}
    {fr tgt k : JStr} :
    k ∈ (bumpOuter tbl fr tgt).map Prod.fst ↔
      k ∈ tbl.map Prod.fst ∨ k = fr := by
  induction tbl with
  | nil => simp [bumpOuter]
  | cons e rest ih =>
    obtain ⟨k0, inner⟩ := e
    by_cases h : k0 = fr
    · subst h; simp [bumpOuter]; tauto
    · simp only [bumpOuter, if_neg h, List.map_cons, List.mem_cons, ih]
      tauto

theorem mem_keys_buildFold (pairs : List (JStr × JStr)) :
    ∀ (tbl : List (JStr × List (JStr × Nat))) (k : JStr),
      k ∈ (pairs.foldl (fun m p => bumpOuter m p.1 p.2) tbl).map Prod.fst ↔
        k ∈ tbl.map Prod.fst ∨ k ∈ pairs.map Prod.fst := by
  induction pairs with
  | nil => simp
  | cons p rest ih =>
    intro tbl k
    simp only [List.foldl_cons]
    rw [ih, mem_keys_bumpOuter]
    simp only [List.map_cons, List.mem_cons]
    tauto

theorem zipConsec_map_fst (acts : List JStr) :
    (zipConsec acts).map Prod.fst = acts.dropLast := by
  induction acts using zipConsec.induct with
  | case1 => rfl
  | case2 a => rfl
  | case3 a b rest ih =>
    show (a, b).1 :: (zipConsec (b :: rest)).map Prod.fst = _
    rw [ih]
    rfl

theorem bumpInner_ne_nil (l : List (JStr × Nat)) (tgt : JStr) :
    bumpInner l tgt ≠ [] := by
  cases l with
  | nil => simp [bumpInner]
  | cons p rest =>
    obtain ⟨k, n⟩ := p
    simp only [bumpInner]
    split <;> simp

theorem bumpOuter_inner_ne_nil {tbl : List (JStr × List (JStr × Nat))}
    {fr tgt : JStr} (h : ∀ e ∈ tbl, e.2 ≠ []) :
    ∀ e ∈ bumpOuter tbl fr tgt, e.2 ≠ [] := by
  induction tbl with
  | nil =>
    intro e he
    simp only [bumpOuter, List.mem_singleton] at he
    subst he
    simp
  | cons e0 rest ih =>
    obtain ⟨k0, inner⟩ := e0
    intro e he
    simp only [bumpOuter] at he
    split at he
    · rcases List.mem_cons.mp he with rfl | hm
      · exact bumpInner_ne_nil inner tgt
      · exact h _ (List.mem_cons_of_mem _ hm)
    · rcases List.mem_cons.mp he with rfl | hm
      · exact h _ (List.mem_cons_self _ _)
      · exact ih (fun e he => h e (List.mem_cons_of_mem _ he)) e hm

theorem buildFold_inner_ne_nil (pairs : List (JStr × JStr)) :
    ∀ (tbl : List (JStr × List (JStr × Nat))), (∀ e ∈ tbl, e.2 ≠ []) →
      ∀ e ∈ pairs.foldl (fun m p => bumpOuter m p.1 p.2) tbl, e.2 ≠ [] := by
  induction pairs with
  | nil => intro tbl h; simpa using h
  | cons p rest ih =>
    intro tbl h
    simp only [List.foldl_cons]
    exact ih _ (bumpOuter_inner_ne_nil h)

theorem bumpInner_pos {l : List (JStr × Nat)} {tgt : JStr}
    (h : ∀ p ∈ l, 1 ≤ p.2) : ∀ p ∈ bumpInner l tgt, 1 ≤ p.2 := by
  induction l with
  | nil =>
    intro p hp
    simp only [bumpInner, List.mem_singleton] at hp
    subst hp
    exact le_rfl
  | cons q rest ih =>
    obtain ⟨k, n⟩ := q
    intro p hp
    simp only [bumpInner] at hp
    split at hp
    · rcases List.mem_cons.mp hp with rfl | hm
      · show 1 ≤ n + 1; omega
      · exact h _ (List.mem_cons_of_mem _ hm)
    · rcases List.mem_cons.mp hp with rfl | hm
      · exact h _ (List.mem_cons_self _ _)
      · exact ih (fun p hp => h p (List.mem_cons_of_mem _ hp)) p hm

theorem bumpOuter_pos {tbl : List (JStr × List (JStr × Nat))} {fr tgt : JStr}
    (h : ∀ e ∈ tbl, ∀ p ∈ e.2, 1 ≤ p.2) :
    ∀ e ∈ bumpOuter tbl fr tgt, ∀ p ∈ e.2, 1 ≤ p.2 := by
  induction tbl with
  | nil =>
    intro e he
    simp only [bumpOuter, List.mem_singleton] at he
    subst he
    intro p hp
    simp only [List.mem_singleton] at hp
    subst hp
    exact le_rfl
  | cons e0 rest ih =>
    obtain ⟨k0, inner⟩ := e0
    intro e he
    simp only [bumpOuter] at he
    split at he
    · rcases List.mem_cons.mp he with rfl | hm
      · exact bumpInner_pos (h _ (List.mem_cons_self _ _))
      · exact h _ (List.mem_cons_of_mem _ hm)
    · rcases List.mem_cons.mp he with rfl | hm
      · exact h _ (List.mem_cons_self _ _)
      · exact ih (fun e he => h e (List.mem_cons_of_mem _ he)) e hm

theorem buildFold_pos (pairs : List (JStr × JStr)) :
    ∀ (tbl : List (JStr × List (JStr × Nat))),
      (∀ e ∈ tbl, ∀ p ∈ e.2, 1 ≤ p.2) →
      ∀ e ∈ pairs.foldl (fun m p => bumpOuter m p.1 p.2) tbl,
        ∀ p ∈ e.2, 1 ≤ p.2 := by
  induction pairs with
  | nil => intro tbl h; simpa using h
  | cons p rest ih =>
    intro tbl h
    simp only [List.foldl_cons]
    exact ih _ (bumpOuter_pos h)

theorem foldl_add_le_start (l : List (JStr × Nat)) :
    ∀ acc : Nat, acc ≤ l.foldl (fun s p => s + p.2) acc := by
  induction l with
  | nil => intro acc; exact le_rfl
  | cons p rest ih =>
    intro acc
    exact le_trans (Nat.le_add_right acc p.2) (ih (acc + p.2))

theorem argmaxFold_isSome_of (total : Nat) (l : List (JStr × Nat)) :
    ∀ (mp : ℚ) (ml : Option JStr), ml.isSome →
      (argmaxFold total l mp ml).2.isSome := by
  induction l with
  | nil => intro mp ml h; exact h
  | cons p rest ih =>
    obtain ⟨a, c⟩ := p
    intro mp ml h
    simp only [argmaxFold]
    split
    · exact ih _ _ rfl
    · exact ih _ _ h

theorem argmaxFold_head_isSome {a : JStr} {c : Nat} {rest : List (JStr × Nat)}
    {total : Nat} (hc : 1 ≤ c) (ht : c ≤ total) :
    (argmaxFold total ((a, c) :: rest) 0 none).2.isSome := by
  have htpos : (0 : ℚ) < (total : ℚ) := by
    have : (1 : Nat) ≤ total := le_trans hc ht
    exact_mod_cast this
  have hq : (0 : ℚ) < qdiv (c : ℚ) (total : ℚ) := by
    rw [qdiv_eq]
    apply div_pos _ htpos
    exact_mod_cast hc
  simp only [argmaxFold, if_pos hq]
  exact argmaxFold_isSome_of _ _ _ _ rfl

theorem innerTotal_head_le (x : JStr × Nat) (rest : List (JStr × Nat)) :
    x.2 ≤ innerTotal (x :: rest) := by
  show x.2 ≤ rest.foldl (fun s p => s + p.2) (0 + x.2)
  have := foldl_add_le_start rest (0 + x.2)
  omega

theorem detectCore_facts (acts : List JStr) :
    (acts.getLastD [] ∉ acts.dropLast →
      detectCore acts = noTransitionsResult acts) ∧
    (acts.getLastD [] ∈ acts.dropLast →
      ∃ inner, lookupTbl (buildTransitions acts) (acts.getLastD []) = some inner ∧
        detectCore acts = predictionSuccess acts inner ∧
        (predictionSuccess acts inner).next.isSome) := by
  have hkeys : ∀ k, k ∈ (buildTransitions acts).map Prod.fst ↔ k ∈ acts.dropLast := by
    intro k
    unfold buildTransitions
    rw [mem_keys_buildFold, zipConsec_map_fst]
    simp
  constructor
  · intro hnm
    have : lookupTbl (buildTransitions acts) (acts.getLastD []) = none :=
      (lookupTbl_eq_none _ _).mpr (fun hm => hnm ((hkeys _).mp hm))
    unfold detectCore
    rw [this]
  · intro hm
    have hnn : lookupTbl (buildTransitions acts) (acts.getLastD []) ≠ none := by
      rw [Ne, lookupTbl_eq_none]
      intro hnm
      exact hnm ((hkeys _).mpr hm)
    obtain ⟨inner, hinner⟩ := Option.ne_none_iff_exists'.mp hnn
    refine ⟨inner, hinner, ?_, ?_⟩
    · unfold detectCore
      rw [hinner]
      have hne : inner ≠ [] :=
        buildFold_inner_ne_nil _ [] (by simp) (_, inner) (lookupTbl_mem hinner)
      show (if inner.length = 0 then noTransitionsResult acts
        else predictionSuccess acts inner) = _
      rw [if_neg (by simpa [List.length_eq_zero] using hne)]
    · have hne : inner ≠ [] :=
        buildFold_inner_ne_nil _ [] (by simp) (_, inner) (lookupTbl_mem hinner)
      have hpos : ∀ p ∈ inner, 1 ≤ p.2 :=
        buildFold_pos _ [] (by simp) (_, inner) (lookupTbl_mem hinner)
      obtain ⟨x, rest, rfl⟩ := List.exists_cons_of_ne_nil hne
      obtain ⟨a, c⟩ := x
      show (argmaxFold (innerTotal ((a, c) :: rest)) ((a, c) :: rest) 0 none).2.isSome
      exact argmaxFold_head_isSome (hpos (a, c) (List.mem_cons_self _ _))
        (innerTotal_head_le (a, c) rest)

/-- C7: amended.  `predictNext` yields no prediction with confidence 0
exactly when the event list has fewer than 3 entries, or the trailing
window holds fewer than 2 decodable activities, or the last in-window
activity never occurs among the earlier in-window activities (so its
transition-matrix entry is missing); otherwise it predicts the argmax by
probability from the entry keyed by the last observed activity. -/
theorem c7_predict_amended (events : List JStr) (lb : Option Int) :
    (((predictNext events lb).next = none ∧
        (predictNext events lb).confidence = 0) ↔
      (events.length < 3 ∨
        (validWindow events (sanitizeLookback lb)).length < 2 ∨
        (predActs events lb).getLastD [] ∉ (predActs events lb).dropLast)) ∧
    (¬ events.length < 3 →
      ¬ (validWindow events (sanitizeLookback lb)).length < 2 →
      (predActs events lb).getLastD [] ∈ (predActs events lb).dropLast →
      ∃ inner,
        lookupTbl (buildTransitions (predActs events lb))
            ((predActs events lb).getLastD []) = some inner ∧
        (predictNext events lb).next =
          (argmaxFold (innerTotal inner) inner 0 none).2 ∧
        (predictNext events lb).next.isSome) := by
  by_cases h1 : events.length < 3
  · have hres : predictNext events lb =
        ⟨none, 0, cs "insufficient_data", some events.length,
          none, none, none⟩ := by
      unfold predictNext detectActivityPattern
      rw [if_pos h1]
    refine ⟨?_, fun h1c => absurd h1 h1c⟩
    rw [hres]
    exact iff_of_true ⟨rfl, rfl⟩ (Or.inl h1)
  · by_cases h2 : (validWindow events (sanitizeLookback lb)).length < 2
    · have hres : predictNext events lb =
          ⟨none, 0, cs "no_valid_activities",
            some (validWindow events (sanitizeLookback lb)).length,
            none, none, none⟩ := by
        simp only [predictNext, detectActivityPattern, if_neg h1, if_pos h2]
      refine ⟨?_, fun _ h2c => absurd h2 h2c⟩
      rw [hres]
      exact iff_of_true ⟨rfl, rfl⟩ (Or.inr (Or.inl h2))
    · have hres : predictNext events lb = detectCore (predActs events lb) := by
        simp only [predictNext, detectActivityPattern, if_neg h1, if_neg h2]
        rfl
      by_cases h3 :
          (predActs events lb).getLastD [] ∈ (predActs events lb).dropLast
      · obtain ⟨inner, hlk, hcore, hsome⟩ := (detectCore_facts _).2 h3
        constructor
        · apply iff_of_false
          · rintro ⟨hn, -⟩
            rw [hres, hcore] at hn
            rw [hn] at hsome
            exact Bool.noConfusion hsome
          · rintro (hc | hc | hc)
            · exact h1 hc
            · exact h2 hc
            · exact hc h3
        · intro _ _ _
          refine ⟨inner, hlk, ?_, ?_⟩
          · rw [hres, hcore]
            rfl
          · rw [hres, hcore]
            exact hsome
      · have hcore := (detectCore_facts (predActs events lb)).1 h3
        refine ⟨?_, fun _ _ h3c => absurd h3c h3⟩
        rw [hres, hcore]
        exact iff_of_true ⟨rfl, rfl⟩ (Or.inr (Or.inr h3))

/-- C7 counterexample: both events decode with nonempty activities, so
the trailing window holds 2 decodable activities, yet `predictNext`
short-circuits on `events.length < 3` and returns no prediction. -/
theorem c7_counterexample :
    (validWindow [cs "ab::5::1", cs "cd::6::1"]
      (sanitizeLookback none)).length = 2 ∧
    (predictNext [cs "ab::5::1", cs "cd::6::1"] none).next = none ∧
    (predictNext [cs "ab::5::1", cs "cd::6::1"] none).confidence = 0 := by
  decide

/-- Witness instantiating the positive branch of `c7_predict_amended` on
a four-event alternating sequence. -/
theorem c7_witness :
    ∃ inner,
      lookupTbl (buildTransitions (predActs [cs "a::1::x", cs "b::1::x",
          cs "a::1::x", cs "b::1::x"] none))
        ((predActs [cs "a::1::x", cs "b::1::x", cs "a::1::x",
          cs "b::1::x"] none).getLastD []) = some inner ∧
      (predictNext [cs "a::1::x", cs "b::1::x", cs "a::1::x",
        cs "b::1::x"] none).next =
        (argmaxFold (innerTotal inner) inner 0 none).2 ∧
      (predictNext [cs "a::1::x", cs "b::1::x", cs "a::1::x",
        cs "b::1::x"] none).next.isSome :=
  (c7_predict_amended [cs "a::1::x", cs "b::1::x", cs "a::1::x",
    cs "b::1::x"] none).2 (by decide) (by decide) (by decide)

/-- `options.maxEvents || 10000` (`0` and missing are falsy). -/
def effMaxEvents : Option Nat → Nat
  | none => 10000
  | some 0 => 10000
  | some (m + 1) => m + 1

/-- The outcomes of `HDDApi.analyzePattern`.  The `INVALID_INPUT` arm
(non-array argument) is unrepresentable over a typed event list.
`exceededLimit` carries the data interpolated into
`Too many events (count), maximum is maxAllowed`.  The full report
carries the decoded valid events, the prediction and the impact sum; the
square-root-based temporal statistics and the per-event context
complexity aggregates live outside the modeled rational/value fragment
and no claim mentions them. -/
inductive AnalyzeResult where
  | exceededLimit (count maxAllowed : Nat)
  | emptyReport
  | noValidEvents (total : Nat)
  | report (validEvents : List DecodedRecord) (prediction : Prediction)
      (totalImpact : ℚ)
deriving DecidableEq

/-- Model of `HDDApi.analyzePattern`: limit guard, empty guard, decode
filter, then the aggregate report. -/
def analyzePattern (hddEvents : List JStr) (maxEvents : Option Nat := none) :
    AnalyzeResult :=
  if effMaxEvents maxEvents < hddEvents.length then
    .exceededLimit hddEvents.length (effMaxEvents maxEvents)
  else if hddEvents.length = 0 then .emptyReport
  else
    let valids := hddEvents.filterMap fun e =>
      match decode e with
      | some r => if r.activity = [] then none else some r
      | none => none
    if valids.length = 0 then .noValidEvents hddEvents.length
    else
      .report valids (detectActivityPattern hddEvents 10)
        (valids.foldl (fun s r => qadd s (calculateImpact r.value)) 0)

/-- C8: with the limit defaulting to 10000, an over-limit event array is
rejected with the structured `EXCEEDED_LIMIT` error, and the result
depends only on the array's length, never on its contents — so no event
is decoded and nothing is partially processed. -/
theorem c8_exceeded_limit (events : List JStr) (mx : Option Nat)
    (h : effMaxEvents mx < events.length) :
    effMaxEvents none = 10000 ∧
    analyzePattern events mx = .exceededLimit events.length (effMaxEvents mx) ∧
    ∀ events2 : List JStr, events2.length = events.length →
      analyzePattern events2 mx = analyzePattern events mx := by
  have hres : ∀ evs : List JStr, evs.length = events.length →
      analyzePattern evs mx = .exceededLimit events.length (effMaxEvents mx) := by
    intro evs hlen
    unfold analyzePattern
    rw [hlen, if_pos h]
  refine ⟨rfl, hres events rfl, fun events2 hlen => ?_⟩
  rw [hres events2 hlen, hres events rfl]

/-- Witness: three arbitrary strings against `maxEvents = 2`. -/
theorem c8_witness :
    effMaxEvents none = 10000 ∧
    analyzePattern [cs "x", cs "y", cs "z"] (some 2) =
      .exceededLimit 3 2 ∧
    ∀ events2 : List JStr, events2.length = 3 →
      analyzePattern events2 (some 2) =
        analyzePattern [cs "x", cs "y", cs "z"] (some 2) :=
  c8_exceeded_limit [cs "x", cs "y", cs "z"] (some 2) (by decide)

theorem numToString_natCast (n : Nat) :
    numToString ((n : Nat) : ℚ) = natToString n := by
  unfold numToString
  rw [if_pos (Rat.den_natCast n)]
  show intToString ((n : ℚ)).num = _
  rw [Rat.num_natCast]
  unfold intToString
  rw [if_neg (by exact_mod_cast Int.not_lt.mpr (Int.ofNat_nonneg n))]
  rw [Int.natAbs_ofNat]

theorem noSep_append {a b : JStr} (ha : noSep a = true) (hb : noSep b = true)
    (hab : endsColon a = false ∨ startsColon b = false) :
    noSep (a ++ b) = true := by
  induction a with
  | nil => simpa using hb
  | cons c rest ih =>
    rw [List.cons_append, noSep_cons_iff]
    constructor
    · rintro ⟨rfl, hsc⟩
      cases rest with
      | nil =>
        rcases hab with h1 | h1
        · simp [endsColon] at h1
        · rw [List.nil_append] at hsc
          rw [h1] at hsc
          exact Bool.noConfusion hsc
      | cons d r =>
        have hd : d = ':' := by simpa [startsColon] using hsc
        subst hd
        simp [noSep] at ha
    · apply ih (noSep_cons ha)
      rcases hab with h1 | h1
      · left
        cases rest with
        | nil => rfl
        | cons d r =>
          rw [endsColon_cons (by simp)] at h1
          exact h1
      · right
        exact h1

theorem endsColon_append {a b : JStr} (hb : b ≠ []) :
    endsColon (a ++ b) = endsColon b := by
  induction a with
  | nil => rfl
  | cons c rest ih =>
    rw [List.cons_append, endsColon_cons (by simp [hb]), ih]

theorem encode_ctx_split (now : Nat) (a : JStr) (v : JVal)
    (fs : List (JStr × JVal)) (ha : a ≠ []) (hsafe : safeField a)
    (hV : encodeValue v 0 ≠ []) (hVsafe : partSafe (encodeValue v 0))
    (hC : encodeValue (.obj fs) 1 ≠ [])
    (hCsafe : partSafe (encodeValue (.obj fs) 1))
    (hlen : (encodeValue (.obj fs) 1).length ≤ 1000) :
    encode now a v (.obj fs) =
      joinCols [escColons a, natToString now, encodeValue v 0,
        encodeValue (.obj fs) 1, CURRENT_VERSION] ∧
    splitCols (encode now a v (.obj fs)) =
      [escColons a, natToString now, encodeValue v 0,
        encodeValue (.obj fs) 1, CURRENT_VERSION] := by
  have hA := escColons_safe hsafe
  have hAne : escColons a ≠ [] := by rw [Ne, escColons_eq_nil_iff]; exact ha
  have hT : partSafe (natToString now) :=
    partSafe_of_noColon (natToString_no_colon now)
  have hsplit : splitCols (joinCols [escColons a, natToString now,
      encodeValue v 0, encodeValue (.obj fs) 1, CURRENT_VERSION]) =
      [escColons a, natToString now, encodeValue v 0,
        encodeValue (.obj fs) 1, CURRENT_VERSION] :=
    splitCols_five ⟨hA.1, hA.2⟩ hT hVsafe hCsafe (by decide)
  have henc : encode now a v (.obj fs) =
      joinCols [escColons a, natToString now, encodeValue v 0,
        encodeValue (.obj fs) 1, CURRENT_VERSION] := by
    unfold encode
    rw [if_neg ha, if_neg (by rintro ⟨h1, -⟩; exact hV h1)]
    show (let encodedContext :=
        if jsTruthy (JVal.obj fs) && typeofObject (JVal.obj fs) then
          if 1000 < (encodeValue (.obj fs) 1).length then
            match jsonParseFull (encodeValue (.obj fs) 1) with
            | some d =>
              jsonStringify (.obj [(cs "data", d),
                (cs "_integrity",
                  .str (generateIntegrityHash (encodeValue (.obj fs) 1))),
                (cs "_ts", .num now)])
            | none => encodeValue (.obj fs) 1
          else encodeValue (.obj fs) 1
        else []
      let parts := [escColons a, natToString now, encodeValue v 0,
        encodedContext, CURRENT_VERSION].filter (fun p => !p.isEmpty)
      let hddString := joinCols parts
      if (splitCols hddString).length < 3 then [] else hddString) = _
    rw [show (jsTruthy (JVal.obj fs) && typeofObject (JVal.obj fs)) = true
        from rfl]
    rw [if_pos rfl, if_neg (Nat.not_lt.mpr hlen)]
    have hfil : [escColons a, natToString now, encodeValue v 0,
        encodeValue (.obj fs) 1, CURRENT_VERSION].filter (fun p => !p.isEmpty) =
        [escColons a, natToString now, encodeValue v 0,
          encodeValue (.obj fs) 1, CURRENT_VERSION] := by
      simp [List.filter_cons, List.isEmpty_iff, hAne, natToString_ne_nil now,
        hV, hC, CURRENT_VERSION]
    simp only [hfil, hsplit]
    rw [if_neg (by simp)]
  exact ⟨henc, by rw [henc, hsplit]⟩

theorem decode_encode_ctx (now : Nat) (a : JStr) (v : JVal)
    (fs : List (JStr × JVal)) (ha : a ≠ []) (hsafe : safeField a)
    (hV : encodeValue v 0 ≠ []) (hVsafe : partSafe (encodeValue v 0))
    (hC : encodeValue (.obj fs) 1 ≠ [])
    (hCsafe : partSafe (encodeValue (.obj fs) 1))
    (hlen : (encodeValue (.obj fs) 1).length ≤ 1000) :
    decode (encode now a v (.obj fs)) = some ⟨a, some now,
      decodeValueField (unescColons (encodeValue v 0)),
      decodeContextField (encodeValue (.obj fs) 1), CURRENT_VERSION⟩ := by
  obtain ⟨henc, hsplit⟩ :=
    encode_ctx_split now a v fs ha hsafe hV hVsafe hC hCsafe hlen
  rw [henc] at hsplit ⊢
  unfold decode
  rw [if_neg (by
    rw [joinCols_five]
    simp only [List.length_append, List.length_cons, not_lt]
    have h1 : 1 ≤ (escColons a).length := by
      cases hq : escColons a with
      | nil => exact absurd ((escColons_eq_nil_iff a).mp hq) ha
      | cons x xs => simp
    omega)]
  simp only [hsplit]
  rw [if_neg (by simp)]
  simp only [List.getD, List.get?_cons_zero, List.get?_cons_succ,
    Option.getD_some, Option.getD_none, List.get?_nil]
  rw [unescColons_escColons hsafe, jsParseInt_natToString]
  have hver : (CURRENT_VERSION).isEmpty = false := rfl
  rw [hver]
  simp

/-- Index-keyed entries produced by spreading an array into an object
literal (`{ ...someArray }`). -/
def indexEntries (i : Nat) : List JVal → List (JStr × JVal)
  | [] => []
  | v :: vs => (natToString i, v) :: indexEntries (i + 1) vs

/-- Index-keyed single-character entries produced by spreading a string
(`{ ...'ab' }` has entries `0: 'a', 1: 'b'`). -/
def indexChars (i : Nat) : JStr → List (JStr × JVal)
  | [] => []
  | c :: rest => (natToString i, .str [c]) :: indexChars (i + 1) rest

/-- Own enumerable properties captured by object spread: objects keep
their fields, arrays and strings spread index-keyed, every other value
(numbers, booleans, dates, `null`, `undefined`) spreads to nothing. -/
def spreadToObj : JVal → List (JStr × JVal)
  | .obj fs => fs
  | .arr xs => indexEntries 0 xs
  | .str s => indexChars 0 s
  | _ => []

/-- The default `keysToSanitize` set of `HDDApi.sanitizeContext`. -/
def SENSITIVE_KEYS : List JStr :=
  [cs "user_id", cs "email", cs "password", cs "token", cs "ssn",
    cs "credit_card", cs "phone", cs "apikey"]

mutual

/-- The `sanitizeObject` walk: a sensitive key's value becomes
`'[REDACTED]'`; otherwise truthy plain-object values (not arrays, not
dates) are walked recursively and everything else is kept. -/
def sanitizeFields (keys : List JStr) : List (JStr × JVal) → List (JStr × JVal)
  | [] => []
  | (k, v) :: fs =>
    (k, if k ∈ keys then .str (cs "[REDACTED]")
        else sanitizeEntryVal keys v) :: sanitizeFields keys fs

/-- Recursion step of `sanitizeObject`: only plain objects are descended
into (`null`, arrays and dates fail the guard and are left alone). -/
def sanitizeEntryVal (keys : List JStr) : JVal → JVal
  | .obj gs => .obj (sanitizeFields keys gs)
  | v => v

end

/-- Model of `HDDApi.sanitizeContext`: decode (`none` models the decode
failure throw), spread the decoded context into a fresh object if truthy,
redact, re-encode with a fresh wall-clock read `now2`.  (The source's
`Object.keys(context).length > 0` guard is dropped: sanitising no fields
is the identity.) -/
def sanitizeContext (now2 : Nat) (hddEvent : JStr)
    (keys : List JStr := SENSITIVE_KEYS) : Option JStr :=
  match decode hddEvent with
  | none => none
  | some r =>
    some (encode now2 r.activity r.value
      (.obj (sanitizeFields keys
        (if jsTruthy r.context then spreadToObj r.context else [])))
      r.version)

/-- `obj[k] = v` on an insertion-ordered object: an existing key keeps
its position, a new key is appended. -/
def setField : List (JStr × JVal) → JStr → JVal → List (JStr × JVal)
  | [], k, v => [(k, v)]
  | (k0, v0) :: fs, k, v =>
    if k0 = k then (k0, v) :: fs else (k0, v0) :: setField fs k v

/-- Later spread entries update or append onto the earlier ones, as in
`{ ...base, ...upd }`. -/
def mergeFields (base : List (JStr × JVal)) :
    List (JStr × JVal) → List (JStr × JVal)
  | [] => base
  | (k, v) :: fs => mergeFields (setField base k v) fs

/-- Model of `HDDApi.injectContext`: decode, build
`{ ...decoded.context, ...additionalContext, _metadata: {...} }` and
re-encode.  The two `Date.now()` reads are injected separately:
`nowMeta` for `_metadata.injected`, `nowEnc` for the clock read inside
`encode`. -/
def injectContext (nowMeta nowEnc : Nat) (hddEvent : JStr)
    (additional : JVal) (source : JStr := cs "hdd_api") : Option JStr :=
  match decode hddEvent with
  | none => none
  | some r =>
    some (encode nowEnc r.activity r.value
      (.obj (setField
        (mergeFields (spreadToObj r.context) (spreadToObj additional))
        (cs "_metadata")
        (.obj [(cs "injected", .num nowMeta),
          (cs "source",
            .str (if source.isEmpty then cs "hdd_api" else source)),
          (cs "version", .str CURRENT_VERSION),
          (cs "operation", .str (cs "context_injection"))])))
      r.version)

/-- C10 counterexample: the record `a::5::00` decodes with value field
`00` (coerced to the number 0); `sanitizeContext` re-encodes that number,
so the output's value field is `0`, not the input's `00` — the encoded
value field is not preserved (nor is the timestamp field, which becomes
the fresh clock value 7). -/
theorem c10_counterexample :
    sanitizeContext 7 (cs "a::5::00") = some (cs "a::7::0::\x7b\x7d::1.1") ∧
    (splitCols (cs "a::5::00")).getD 2 [] = cs "00" ∧
    (splitCols (cs "a::7::0::\x7b\x7d::1.1")).getD 2 [] = cs "0" ∧
    (cs "00" : JStr) ≠ cs "0" := by
  decide

set_option maxRecDepth 4000 in
/-- C10: amended.  On a well-formed encoded record with a structured
context, both `sanitizeContext` and `injectContext` produce an encoded
record that again decodes, with the input's activity, value and version,
but with the timestamp equal to the wall clock at re-encode time
(`now2`), whatever the input record's own timestamp `now1` was. -/
theorem c10_frame_amended (now1 now2 : Nat) :
    (∃ out, sanitizeContext now2 (encode now1 (cs "act") (.num 1)
        (.obj [(cs "b", .num 2)])) = some out ∧
      ∃ r, decode out = some r ∧ r.activity = cs "act" ∧
        r.value = .num 1 ∧ r.version = CURRENT_VERSION ∧
        r.timestamp = some now2) ∧
    (∃ out, injectContext 1735682400000 now2
        (encode now1 (cs "act") (.num 1) (.obj [(cs "b", .num 2)]))
        (.obj [(cs "c", .bool true)]) = some out ∧
      ∃ r, decode out = some r ∧ r.activity = cs "act" ∧
        r.value = .num 1 ∧ r.version = CURRENT_VERSION ∧
        r.timestamp = some now2) := by
  have hdecv : decodeValueField (unescColons (encodeValue (JVal.num 1) 0)) =
      JVal.num 1 := by decide
  have hdec_in : decode (encode now1 (cs "act") (JVal.num 1)
      (.obj [(cs "b", JVal.num 2)])) =
      some ⟨cs "act", some now1, JVal.num 1,
        JVal.obj [(cs "b", JVal.num 2)], CURRENT_VERSION⟩ := by
    rw [decode_encode_ctx now1 _ _ _ (by decide) (by decide) (by decide)
      (by decide) (by decide) (by decide) (by decide)]
    rw [hdecv, show decodeContextField
      (encodeValue (JVal.obj [(cs "b", JVal.num 2)]) 1) =
      JVal.obj [(cs "b", JVal.num 2)] from by decide]
  constructor
  · refine ⟨encode now2 (cs "act") (JVal.num 1)
      (.obj [(cs "b", JVal.num 2)]) CURRENT_VERSION, ?_, ?_⟩
    · unfold sanitizeContext
      rw [hdec_in]
      rfl
    · rw [decode_encode_ctx now2 _ _ _ (by decide) (by decide) (by decide)
        (by decide) (by decide) (by decide) (by decide)]
      exact ⟨_, rfl, rfl, hdecv, rfl, rfl⟩
  · refine ⟨encode now2 (cs "act") (JVal.num 1)
      (.obj [(cs "b", JVal.num 2), (cs "c", JVal.bool true),
        (cs "_metadata", .obj [(cs "injected", .num (1735682400000 : Nat)),
          (cs "source", .str (cs "hdd_api")),
          (cs "version", .str CURRENT_VERSION),
          (cs "operation", .str (cs "context_injection"))])])
      CURRENT_VERSION, ?_, ?_⟩
    · unfold injectContext
      rw [hdec_in]
      rfl
    · rw [decode_encode_ctx now2 _ _ _ (by decide) (by decide) (by decide)
        (by decide) (by decide) (by decide) (by decide)]
      exact ⟨_, rfl, rfl, hdecv, rfl, rfl⟩

/-- Characters that pass through a JSON string literal unchanged in both
directions (no quote, no backslash). -/
def plainJsonChar (c : Char) : Prop := c ≠ '"' ∧ c ≠ '\\'

instance (c : Char) : Decidable (plainJsonChar c) := by
  unfold plainJsonChar; infer_instance

theorem escJsonChar_plain {c : Char} (h : plainJsonChar c)
    (hn : c ≠ '\n') (ht : c ≠ '\t') (hr : c ≠ '\r') :
    escJsonChar c = [c] := by
  unfold escJsonChar
  rw [if_neg h.1, if_neg h.2, if_neg hn, if_neg ht, if_neg hr]

theorem parseStrBody_plain {s : JStr} (hp : ∀ c ∈ s, plainJsonChar c)
    (rest : JStr) : parseStrBody (s ++ '"' :: rest) = some (s, rest) := by
  induction s with
  | nil => rfl
  | cons c t ih =>
    have hc := hp c (by simp)
    rw [List.cons_append]
    have hstep : parseStrBody (c :: (t ++ '"' :: rest)) =
        (parseStrBody (t ++ '"' :: rest)).map (fun p => (c :: p.1, p.2)) := by
      apply parseStrBody.eq_4
      · intro h1
        exact hc.1 h1
      · intro d r h1 _
        exact hc.2 h1
    rw [hstep, ih (fun d hd => hp d (by simp [hd]))]
    rfl

theorem headI_mem {s : JStr} (h : s ≠ []) : s.headI ∈ s := by
  cases s with
  | nil => exact absurd rfl h
  | cons c t => exact List.mem_cons_self c t

theorem natToString_headI_ne_zero {n : Nat} (hn : n ≠ 0)
    (hlen : 1 < (natToString n).length) : (natToString n).headI ≠ '0' := by
  unfold natToString
  rw [if_neg hn, natDigits_eq_digits 10 (by norm_num) n]
  have hne : Nat.digits 10 n ≠ [] := by
    simp [Nat.digits_ne_nil_iff_ne_zero, hn]
  have hmapne : (Nat.digits 10 n).map digitChar10 ≠ [] := by simpa using hne
  obtain ⟨x, xs, hx⟩ :=
    List.exists_cons_of_ne_nil (by simpa using hmapne :
      ((Nat.digits 10 n).map digitChar10).reverse ≠ [])
  rw [hx]
  show x ≠ '0'
  have hx2 : some x = ((Nat.digits 10 n).map digitChar10).getLast hmapne := by
    rw [← List.getLast?_eq_getLast _ hmapne, ← List.head?_reverse, hx]
    rfl
  rw [List.getLast_map _ _ hmapne] at hx2
  have hdlt : (Nat.digits 10 n).getLast hne < 10 :=
    Nat.digits_lt_base (by norm_num) (List.getLast_mem hne)
  have hdnz : (Nat.digits 10 n).getLast hne ≠ 0 :=
    Nat.getLast_digit_ne_zero 10 hn
  intro hx0
  have hxe := Option.some.inj hx2
  rw [hx0] at hxe
  have h48 := digitChar10_toNat hdlt
  rw [← hxe] at h48
  have h0 : Char.toNat '0' = 48 := by decide
  omega

theorem parseExpPart_none {q : ℚ} {s : JStr} (h1 : s.headI ≠ 'e')
    (h2 : s.headI ≠ 'E') : parseExpPart q s = some (q, s) := by
  unfold parseExpPart
  rw [if_neg (by rintro (h | h); exacts [h1 h, h2 h])]

theorem parseJsonNumAfterSign_natToString (n : Nat) {rest : JStr}
    (hr : digitHead rest = false) (hd : rest.headI ≠ '.')
    (he : rest.headI ≠ 'e') (hE : rest.headI ≠ 'E') :
    parseJsonNumAfterSign (natToString n ++ rest) = some ((n : ℚ), rest) := by
  have htd : takeDigits (natToString n ++ rest) = (natToString n, rest) :=
    takeDigits_append (natToString_all_digits n) hr
  unfold parseJsonNumAfterSign
  rw [htd]
  rw [if_neg (by simpa [List.isEmpty_iff] using natToString_ne_nil n)]
  rw [if_neg (by
    rintro ⟨hlen, hhead⟩
    by_cases h0 : n = 0
    · subst h0; simp [natToString] at hlen
    · exact natToString_headI_ne_zero h0 hlen hhead)]
  rw [if_neg (by simpa [startsDot] using hd)]
  rw [parseExpPart_none he hE, digitsVal_natToString]

theorem natToString_headI_digit (n : Nat) :
    isDigitC (natToString n).headI = true :=
  natToString_all_digits n _ (headI_mem (natToString_ne_nil n))

theorem digit_not_jsonWs {c : Char} (h : isDigitC c = true) :
    isJsonWs c = false := by
  unfold isDigitC at h
  unfold isJsonWs
  simp only [Bool.and_eq_true, decide_eq_true_eq] at h
  simp only [Bool.or_eq_false_iff, decide_eq_false_iff_not]
  omega

/-- Characters rendered verbatim by `JSON.stringify` and consumed
verbatim by the string-literal parser. -/
def jsonSafeChar (c : Char) : Prop :=
  c ≠ '"' ∧ c ≠ '\\' ∧ c ≠ '\n' ∧ c ≠ '\t' ∧ c ≠ '\r'

theorem jsonSafeChar_of_range {c : Char}
    (h : (48 ≤ c.toNat ∧ c.toNat ≤ 57) ∨ (97 ≤ c.toNat ∧ c.toNat ≤ 122)) :
    jsonSafeChar c ∧ c ≠ ':' := by
  refine ⟨⟨?_, ?_, ?_, ?_, ?_⟩, ?_⟩ <;>
    · rintro rfl
      revert h
      decide

theorem escJson_safe {s : JStr} (h : ∀ c ∈ s, jsonSafeChar c) :
    escJson s = s := by
  induction s with
  | nil => rfl
  | cons c t ih =>
    have hc := h c (by simp)
    show escJsonChar c ++ escJson t = c :: t
    rw [escJsonChar_plain ⟨hc.1, hc.2.1⟩ hc.2.2.1 hc.2.2.2.1 hc.2.2.2.2,
      ih (fun d hd => h d (by simp [hd]))]
    rfl

theorem natToBase36_mem (m : Nat) :
    ∀ c ∈ natToBase36 m, (48 ≤ c.toNat ∧ c.toNat ≤ 57) ∨
      (97 ≤ c.toNat ∧ c.toNat ≤ 122) := by
  intro c hc
  unfold natToBase36 at hc
  split at hc
  · simp at hc; subst hc; left; decide
  · rw [natDigits_eq_digits 36 (by norm_num) m] at hc
    simp only [List.mem_reverse, List.mem_map] at hc
    obtain ⟨d, hd, rfl⟩ := hc
    have hlt : d < 36 := Nat.digits_lt_base (by norm_num) hd
    unfold digitChar36
    by_cases h10 : d < 10
    · rw [if_pos h10]
      left
      have : (Char.ofNat (48 + d)).toNat = 48 + d := by
        rw [Char.ofNat, dif_pos (by left; omega)]
        rfl
      omega
    · rw [if_neg h10]
      right
      have : (Char.ofNat (87 + d)).toNat = 87 + d := by
        rw [Char.ofNat, dif_pos (by left; omega)]
        rfl
      omega

/-- The filler string: `n` letters `a`. -/
def aRun (n : Nat) : JStr := List.replicate n 'a'

theorem aRun_mem {n : Nat} : ∀ c ∈ aRun n, c = 'a' := by
  intro c hc
  exact List.eq_of_mem_replicate hc

theorem aRun_safe (n : Nat) : ∀ c ∈ aRun n, jsonSafeChar c := by
  intro c hc
  rw [aRun_mem c hc]
  exact ⟨by decide, by decide, by decide, by decide, by decide⟩

theorem aRun_plain (n : Nat) : ∀ c ∈ aRun n, plainJsonChar c := by
  intro c hc
  rw [aRun_mem c hc]
  exact ⟨by decide, by decide⟩

theorem jsonSafe_plain {c : Char} (h : jsonSafeChar c) : plainJsonChar c :=
  ⟨h.1, h.2.1⟩

theorem jsonParseVal_str (fuel : Nat) {s : JStr}
    (hp : ∀ c ∈ s, plainJsonChar c) (rest : JStr) :
    jsonParseVal (fuel + 1) ('"' :: (s ++ '"' :: rest)) =
      some (.str s, rest) := by
  have hsk : skipWs ('"' :: (s ++ '"' :: rest)) = '"' :: (s ++ '"' :: rest) :=
    List.dropWhile_cons_of_neg (by decide)
  simp only [jsonParseVal, hsk, List.headI_cons, List.tail_cons,
    reduceIte]
  rw [parseStrBody_plain hp]
  rfl

theorem isDigitC_notChar {c : Char} (h : isDigitC c = true) {d : Char}
    (hd : ¬(48 ≤ d.toNat ∧ d.toNat ≤ 57)) : c ≠ d := by
  rintro rfl
  unfold isDigitC at h
  simp only [Bool.and_eq_true, decide_eq_true_eq] at h
  exact hd h

theorem jsonParseVal_num (fuel : Nat) (n : Nat) {rest : JStr}
    (hr : digitHead rest = false) (hd : rest.headI ≠ '.')
    (he : rest.headI ≠ 'e') (hE : rest.headI ≠ 'E') :
    jsonParseVal (fuel + 1) (natToString n ++ rest) =
      some (.num (n : ℚ), rest) := by
  obtain ⟨c, t, hct⟩ := List.exists_cons_of_ne_nil (natToString_ne_nil n)
  have hc : isDigitC c = true := by
    have := natToString_headI_digit n
    rw [hct] at this
    exact this
  have hsk : skipWs (natToString n ++ rest) = natToString n ++ rest := by
    rw [hct, List.cons_append]
    exact List.dropWhile_cons_of_neg (by simp [digit_not_jsonWs hc])
  simp only [jsonParseVal, hsk]
  have hhead : (natToString n ++ rest).headI = c := by
    rw [hct]
    rfl
  rw [hhead]
  rw [if_neg (isDigitC_notChar hc (by decide)),
    if_neg (isDigitC_notChar hc (by decide)),
    if_neg (isDigitC_notChar hc (by decide)),
    if_neg (isDigitC_notChar hc (by decide)),
    if_neg (isDigitC_notChar hc (by decide)),
    if_neg (isDigitC_notChar hc (by decide))]
  show (parseJsonNumber (natToString n ++ rest)).map _ = _
  unfold parseJsonNumber
  rw [hhead, if_neg (isDigitC_notChar hc (by decide))]
  rw [parseJsonNumAfterSign_natToString n hr hd he hE]
  rfl

theorem jsonParseMembers_last (fuel : Nat) {k : JStr}
    (hk : ∀ c ∈ k, plainJsonChar c) {vs r : JStr} {v : JVal}
    (hval : jsonParseVal fuel vs = some (v, '\x7d' :: r)) :
    jsonParseMembers (fuel + 1) ('"' :: (k ++ '"' :: ':' :: vs)) =
      some ([(k, v)], r) := by
  have hsk : skipWs ('"' :: (k ++ '"' :: ':' :: vs)) =
      '"' :: (k ++ '"' :: ':' :: vs) :=
    List.dropWhile_cons_of_neg (by decide)
  have hsk2 : skipWs (':' :: vs) = ':' :: vs :=
    List.dropWhile_cons_of_neg (by decide)
  have hsk3 : skipWs ('\x7d' :: r) = '\x7d' :: r :=
    List.dropWhile_cons_of_neg (by decide)
  simp only [jsonParseMembers, hsk, List.headI_cons, List.tail_cons, reduceIte]
  rw [parseStrBody_plain hk]
  simp only [hsk2, List.headI_cons, List.tail_cons, reduceIte]
  rw [hval]
  simp only [hsk3, List.headI_cons, List.tail_cons, reduceIte]
  rw [if_neg (by decide)]

theorem jsonParseMembers_cons (fuel : Nat) {k : JStr}
    (hk : ∀ c ∈ k, plainJsonChar c) {vs r r2 : JStr} {v : JVal}
    {ms : List (JStr × JVal)}
    (hval : jsonParseVal fuel vs = some (v, ',' :: r))
    (hcont : jsonParseMembers fuel r = some (ms, r2)) :
    jsonParseMembers (fuel + 1) ('"' :: (k ++ '"' :: ':' :: vs)) =
      some ((k, v) :: ms, r2) := by
  have hsk : skipWs ('"' :: (k ++ '"' :: ':' :: vs)) =
      '"' :: (k ++ '"' :: ':' :: vs) :=
    List.dropWhile_cons_of_neg (by decide)
  have hsk2 : skipWs (':' :: vs) = ':' :: vs :=
    List.dropWhile_cons_of_neg (by decide)
  have hsk3 : skipWs (',' :: r) = ',' :: r :=
    List.dropWhile_cons_of_neg (by decide)
  simp only [jsonParseMembers, hsk, List.headI_cons, List.tail_cons, reduceIte]
  rw [parseStrBody_plain hk]
  simp only [hsk2, List.headI_cons, List.tail_cons, reduceIte]
  rw [hval]
  simp only [hsk3, List.headI_cons, List.tail_cons, reduceIte]
  rw [hcont]
  rfl

theorem jsonParseVal_obj (fuel : Nat) {body rest : JStr}
    {ms : List (JStr × JVal)} (hb : body.headI = '"')
    (hm : jsonParseMembers fuel body = some (ms, rest)) :
    jsonParseVal (fuel + 1) ('\x7b' :: body) = some (.obj ms, rest) := by
  obtain ⟨c, t, hct⟩ : ∃ c t, body = c :: t := by
    cases hbb : body with
    | nil => rw [hbb] at hb; exact absurd hb (by decide)
    | cons c t => exact ⟨c, t, rfl⟩
  have hcq : c = '"' := by rw [hct] at hb; exact hb
  subst hcq
  have hsk : skipWs ('\x7b' :: body) = '\x7b' :: body :=
    List.dropWhile_cons_of_neg (by decide)
  have hsk2 : skipWs body = body := by
    rw [hct]
    exact List.dropWhile_cons_of_neg (by decide)
  simp only [jsonParseVal, hsk, List.headI_cons, List.tail_cons, reduceIte,
    hsk2]
  rw [if_neg (by rw [hb]; decide), hm]
  rfl

/-- A one-key context whose value is an `n`-character filler string; its
serialization has length `n + 8`, so `n ≥ 993` pushes it past the
1000-character envelope threshold. -/
def bigCtx (n : Nat) : JVal := .obj [(cs "k", .str (aRun n))]

/-- The integrity envelope object built by `encode` around an oversized
serialized context. -/
def envCtx (n : Nat) (hs : JStr) (now : Nat) : JVal :=
  .obj [(cs "data", bigCtx n), (cs "_integrity", .str hs),
    (cs "_ts", .num now)]

theorem encodeValue_bigCtx (n : Nat) :
    encodeValue (bigCtx n) 1 = jsonStringify (bigCtx n) := rfl

theorem jsonStringify_bigCtx (n : Nat) :
    jsonStringify (bigCtx n) =
      '\x7b' :: '"' :: 'k' :: '"' :: ':' :: '"' :: (aRun n ++ ['"', '\x7d']) := by
  show '\x7b' :: (commaJoin (jsonStringifyObj [(cs "k", .str (aRun n))]) ++
      ['\x7d']) = _
  simp only [jsonStringifyObj, commaJoin, jsonStringify]
  rw [escJson_safe (aRun_safe n),
    show escJson (cs "k") = (['k'] : JStr) from by decide]
  simp

theorem length_stringify_bigCtx (n : Nat) :
    (jsonStringify (bigCtx n)).length = n + 8 := by
  rw [jsonStringify_bigCtx]
  simp [aRun]

theorem jsonStringify_envCtx (n : Nat) {hs : JStr}
    (hh : ∀ c ∈ hs, jsonSafeChar c) (now : Nat) :
    jsonStringify (envCtx n hs now) =
      '\x7b' :: '"' :: 'd' :: 'a' :: 't' :: 'a' :: '"' :: ':' :: '\x7b' ::
        '"' :: 'k' :: '"' :: ':' :: '"' :: (aRun n ++ '"' :: '\x7d' :: ',' ::
        '"' :: '_' :: 'i' :: 'n' :: 't' :: 'e' :: 'g' :: 'r' :: 'i' :: 't' ::
        'y' :: '"' :: ':' :: '"' :: (hs ++ '"' :: ',' :: '"' :: '_' :: 't' ::
        's' :: '"' :: ':' :: (natToString now ++ ['\x7d']))) := by
  show '\x7b' :: (commaJoin (jsonStringifyObj
      [(cs "data", .obj [(cs "k", .str (aRun n))]), (cs "_integrity", .str hs),
        (cs "_ts", .num ((now : Nat) : ℚ))]) ++ ['\x7d']) = _
  simp only [jsonStringifyObj, commaJoin, jsonStringify]
  rw [escJson_safe hh, escJson_safe (aRun_safe n), numToString_natCast,
    show escJson (cs "data") = (cs "data" : JStr) from by decide,
    show escJson (cs "_integrity") = (cs "_integrity" : JStr) from by decide,
    show escJson (cs "_ts") = (cs "_ts" : JStr) from by decide,
    show escJson (cs "k") = (['k'] : JStr) from by decide]
  simp [cs]

theorem parse_bigCtxStr (fuel : Nat) (n : Nat) (r : JStr) :
    jsonParseVal (fuel + 3) ('\x7b' :: '"' :: 'k' :: '"' :: ':' :: '"' ::
      (aRun n ++ '"' :: '\x7d' :: r)) = some (bigCtx n, r) := by
  have hk : ∀ c ∈ (['k'] : JStr), plainJsonChar c := by
    intro c hc
    simp at hc
    subst hc
    exact ⟨by decide, by decide⟩
  have hval : jsonParseVal (fuel + 1)
      ('"' :: (aRun n ++ '"' :: '\x7d' :: r)) =
      some (.str (aRun n), '\x7d' :: r) :=
    jsonParseVal_str fuel (aRun_plain n) ('\x7d' :: r)
  have hm : jsonParseMembers (fuel + 2)
      ('"' :: (['k'] ++ '"' :: ':' :: ('"' ::
        (aRun n ++ '"' :: '\x7d' :: r)))) =
      some ([(['k'], .str (aRun n))], r) :=
    jsonParseMembers_last (fuel + 1) hk hval
  exact jsonParseVal_obj (fuel + 2) rfl hm

theorem key_plain_data : ∀ c ∈ (cs "data" : JStr), plainJsonChar c := by
  decide

theorem key_plain_integrity :
    ∀ c ∈ (cs "_integrity" : JStr), plainJsonChar c := by
  decide

theorem key_plain_ts : ∀ c ∈ (cs "_ts" : JStr), plainJsonChar c := by
  decide

theorem parse_envelope (fuel : Nat) (n : Nat) {hs : JStr}
    (hh : ∀ c ∈ hs, plainJsonChar c) (now : Nat) :
    jsonParseVal (fuel + 6) ('\x7b' :: '"' :: 'd' :: 'a' :: 't' :: 'a' ::
      '"' :: ':' :: '\x7b' :: '"' :: 'k' :: '"' :: ':' :: '"' ::
      (aRun n ++ '"' :: '\x7d' :: ',' :: '"' :: '_' :: 'i' :: 'n' :: 't' ::
        'e' :: 'g' :: 'r' :: 'i' :: 't' :: 'y' :: '"' :: ':' :: '"' ::
        (hs ++ '"' :: ',' :: '"' :: '_' :: 't' :: 's' :: '"' :: ':' ::
          (natToString now ++ ['\x7d'])))) =
      some (envCtx n hs now, []) := by
  have hv3 : jsonParseVal (fuel + 2) (natToString now ++ ['\x7d']) =
      some (.num ((now : Nat) : ℚ), ['\x7d']) :=
    jsonParseVal_num (fuel + 1) now (by decide) (by decide) (by decide)
      (by decide)
  have hm3 : jsonParseMembers (fuel + 3)
      ('"' :: (cs "_ts" ++ '"' :: ':' :: (natToString now ++ ['\x7d']))) =
      some ([(cs "_ts", .num ((now : Nat) : ℚ))], []) :=
    jsonParseMembers_last (fuel + 2) key_plain_ts hv3
  have hv2 : jsonParseVal (fuel + 3)
      ('"' :: (hs ++ '"' :: ',' :: '"' :: '_' :: 't' :: 's' :: '"' :: ':' ::
        (natToString now ++ ['\x7d']))) =
      some (.str hs, ',' :: ('"' :: '_' :: 't' :: 's' :: '"' :: ':' ::
        (natToString now ++ ['\x7d']))) :=
    jsonParseVal_str (fuel + 2) hh _
  have hm2 : jsonParseMembers (fuel + 4)
      ('"' :: (cs "_integrity" ++ '"' :: ':' :: ('"' ::
        (hs ++ '"' :: ',' :: '"' :: '_' :: 't' :: 's' :: '"' :: ':' ::
          (natToString now ++ ['\x7d']))))) =
      some ((cs "_integrity", .str hs) :: [(cs "_ts",
        .num ((now : Nat) : ℚ))], []) :=
    jsonParseMembers_cons (fuel + 3) key_plain_integrity hv2 hm3
  have hv1 : jsonParseVal (fuel + 4) ('\x7b' :: '"' :: 'k' :: '"' :: ':' ::
      '"' :: (aRun n ++ '"' :: '\x7d' :: ',' :: ('"' :: '_' :: 'i' :: 'n' ::
        't' :: 'e' :: 'g' :: 'r' :: 'i' :: 't' :: 'y' :: '"' :: ':' :: '"' ::
        (hs ++ '"' :: ',' :: '"' :: '_' :: 't' :: 's' :: '"' :: ':' ::
          (natToString now ++ ['\x7d']))))) =
      some (bigCtx n, ',' :: ('"' :: '_' :: 'i' :: 'n' :: 't' :: 'e' :: 'g' ::
        'r' :: 'i' :: 't' :: 'y' :: '"' :: ':' :: '"' ::
        (hs ++ '"' :: ',' :: '"' :: '_' :: 't' :: 's' :: '"' :: ':' ::
          (natToString now ++ ['\x7d'])))) :=
    parse_bigCtxStr (fuel + 1) n _
  have hm1 : jsonParseMembers (fuel + 5)
      ('"' :: (cs "data" ++ '"' :: ':' :: ('\x7b' :: '"' :: 'k' :: '"' ::
        ':' :: '"' :: (aRun n ++ '"' :: '\x7d' :: ',' :: ('"' :: '_' :: 'i' ::
        'n' :: 't' :: 'e' :: 'g' :: 'r' :: 'i' :: 't' :: 'y' :: '"' :: ':' ::
        '"' :: (hs ++ '"' :: ',' :: '"' :: '_' :: 't' :: 's' :: '"' :: ':' ::
          (natToString now ++ ['\x7d']))))))) =
      some ((cs "data", bigCtx n) :: ((cs "_integrity", .str hs) ::
        [(cs "_ts", .num ((now : Nat) : ℚ))]), []) := by
    apply jsonParseMembers_cons (fuel + 4) key_plain_data hv1
    show jsonParseMembers (fuel + 4) ('"' :: (cs "_integrity" ++ '"' :: ':' ::
      ('"' :: (hs ++ '"' :: ',' :: '"' :: '_' :: 't' :: 's' :: '"' :: ':' ::
        (natToString now ++ ['\x7d']))))) = _
    exact hm2
  have hobj := @jsonParseVal_obj (fuel + 5)
    ('"' :: (cs "data" ++ '"' :: ':' :: ('\x7b' :: '"' :: 'k' ::
      '"' :: ':' :: '"' :: (aRun n ++ '"' :: '\x7d' :: ',' :: ('"' :: '_' ::
      'i' :: 'n' :: 't' :: 'e' :: 'g' :: 'r' :: 'i' :: 't' :: 'y' :: '"' ::
      ':' :: '"' :: (hs ++ '"' :: ',' :: '"' :: '_' :: 't' :: 's' :: '"' ::
      ':' :: (natToString now ++ ['\x7d'])))))))
    [] ((cs "data", bigCtx n) :: ((cs "_integrity", .str hs) ::
      [(cs "_ts", .num ((now : Nat) : ℚ))])) rfl hm1
  exact hobj

theorem jsonParseFull_bigCtx (n : Nat) :
    jsonParseFull (jsonStringify (bigCtx n)) = some (bigCtx n) := by
  unfold jsonParseFull
  have hfe : (jsonStringify (bigCtx n)).length + 1 = (n + 6) + 3 := by
    rw [length_stringify_bigCtx n]
  rw [hfe, jsonStringify_bigCtx n]
  have hp := parse_bigCtxStr (n + 6) n []
  rw [show ('\x7b' :: '"' :: 'k' :: '"' :: ':' :: '"' ::
      (aRun n ++ ['"', '\x7d']) : JStr) =
    '\x7b' :: '"' :: 'k' :: '"' :: ':' :: '"' ::
      (aRun n ++ '"' :: '\x7d' :: ([] : JStr)) from rfl, hp]
  rfl

theorem hash_mem_range (d : JStr) :
    ∀ c ∈ generateIntegrityHash d, (48 ≤ c.toNat ∧ c.toNat ≤ 57) ∨
      (97 ≤ c.toNat ∧ c.toNat ≤ 122) :=
  natToBase36_mem _

theorem hash_safe (d : JStr) : ∀ c ∈ generateIntegrityHash d, jsonSafeChar c :=
  fun c hc => (jsonSafeChar_of_range (hash_mem_range d c hc)).1

theorem hash_no_colon (d : JStr) : ':' ∉ generateIntegrityHash d := by
  intro hm
  exact (jsonSafeChar_of_range (hash_mem_range d _ hm)).2 rfl

theorem jsonParseFull_envCtx (n : Nat) {hs : JStr}
    (hh : ∀ c ∈ hs, jsonSafeChar c) (now : Nat) :
    jsonParseFull (jsonStringify (envCtx n hs now)) =
      some (envCtx n hs now) := by
  unfold jsonParseFull
  have h6 : 6 ≤ (jsonStringify (envCtx n hs now)).length + 1 := by
    rw [jsonStringify_envCtx n hh now]
    simp
  have hfe : (jsonStringify (envCtx n hs now)).length + 1 =
      ((jsonStringify (envCtx n hs now)).length + 1 - 6) + 6 := by omega
  rw [hfe, jsonStringify_envCtx n hh now,
    parse_envelope _ n (fun c hc => jsonSafe_plain (hh c hc)) now]
  rfl

theorem noSep_aRun (n : Nat) : noSep (aRun n) = true :=
  noSep_of_noColon (fun hm => by
    have := aRun_mem ':' hm
    exact absurd this (by decide))

theorem aRun_no_colon (n : Nat) : ':' ∉ aRun n := fun hm => by
  have := aRun_mem ':' hm
  exact absurd this (by decide)

theorem startsColon_append_natToString (now : Nat) (r : JStr) :
    startsColon (natToString now ++ r) = false := by
  obtain ⟨c, t, hct⟩ := List.exists_cons_of_ne_nil (natToString_ne_nil now)
  have hc : isDigitC c = true := by
    have := natToString_headI_digit now
    rw [hct] at this
    exact this
  rw [hct, List.cons_append]
  show (c == ':') = false
  simp only [beq_eq_false_iff_ne, Ne]
  exact isDigitC_notChar hc (by decide)

theorem partSafe_envStr (n : Nat) {hs : JStr}
    (hsafe : ∀ c ∈ hs, jsonSafeChar c) (hcol : ':' ∉ hs) (now : Nat) :
    partSafe (jsonStringify (envCtx n hs now)) := by
  have hflat : jsonStringify (envCtx n hs now) =
      (['\x7b', '"', 'd', 'a', 't', 'a', '"', ':', '\x7b', '"', 'k', '"',
        ':', '"'] : JStr) ++
      (aRun n ++ ((['"', '\x7d', ',', '"', '_', 'i', 'n', 't', 'e', 'g',
        'r', 'i', 't', 'y', '"', ':', '"'] : JStr) ++
      (hs ++ ((['"', ',', '"', '_', 't', 's', '"', ':'] : JStr) ++
      (natToString now ++ ['\x7d']))))) := by
    rw [jsonStringify_envCtx n hsafe now]
    rfl
  have hdig : noSep (natToString now ++ ['\x7d']) = true :=
    noSep_append (noSep_of_noColon (natToString_no_colon now)) (by decide)
      (Or.inl (endsColon_false_of_noColon (natToString_no_colon now)))
  have htail2 : noSep ((['"', ',', '"', '_', 't', 's', '"', ':'] : JStr) ++
      (natToString now ++ ['\x7d'])) = true :=
    noSep_append (by decide) hdig
      (Or.inr (startsColon_append_natToString now _))
  have htail3 : noSep (hs ++ ((['"', ',', '"', '_', 't', 's', '"', ':'] :
      JStr) ++ (natToString now ++ ['\x7d']))) = true :=
    noSep_append (noSep_of_noColon hcol) htail2
      (Or.inl (endsColon_false_of_noColon hcol))
  have htail4 : noSep ((['"', '\x7d', ',', '"', '_', 'i', 'n', 't', 'e',
      'g', 'r', 'i', 't', 'y', '"', ':', '"'] : JStr) ++
      (hs ++ ((['"', ',', '"', '_', 't', 's', '"', ':'] : JStr) ++
      (natToString now ++ ['\x7d'])))) = true :=
    noSep_append (by decide) htail3 (Or.inl (by decide))
  have htail5 : noSep (aRun n ++ ((['"', '\x7d', ',', '"', '_', 'i', 'n',
      't', 'e', 'g', 'r', 'i', 't', 'y', '"', ':', '"'] : JStr) ++
      (hs ++ ((['"', ',', '"', '_', 't', 's', '"', ':'] : JStr) ++
      (natToString now ++ ['\x7d']))))) = true :=
    noSep_append (noSep_aRun n) htail4
      (Or.inl (endsColon_false_of_noColon (aRun_no_colon n)))
  constructor
  · rw [hflat]
    exact noSep_append (by decide) htail5 (Or.inl (by decide))
  · have hflat2 : jsonStringify (envCtx n hs now) =
        ((['\x7b', '"', 'd', 'a', 't', 'a', '"', ':', '\x7b', '"', 'k', '"',
          ':', '"'] : JStr) ++ aRun n ++ ['"', '\x7d', ',', '"', '_', 'i',
          'n', 't', 'e', 'g', 'r', 'i', 't', 'y', '"', ':', '"'] ++ hs ++
          ['"', ',', '"', '_', 't', 's', '"', ':'] ++ natToString now) ++
          ['\x7d'] := by
      rw [hflat]
      simp [List.append_assoc]
    rw [hflat2, endsColon_append (by simp)]
    decide

theorem decode_five_generic {p1 p2 p3 p4 p5 : JStr}
    (h1 : partSafe p1) (h2 : partSafe p2) (h3 : partSafe p3)
    (h4 : partSafe p4) (h5 : noSep p5 = true) :
    decode (joinCols [p1, p2, p3, p4, p5]) =
      some ⟨unescColons p1, jsParseInt p2,
        decodeValueField (unescColons p3), decodeContextField p4,
        if p5.isEmpty then CURRENT_VERSION else p5⟩ := by
  have hsplit := splitCols_five h1 h2 h3 h4 h5
  unfold decode
  rw [if_neg (by
    rw [joinCols_five]
    simp only [List.length_append, List.length_cons, not_lt]
    omega)]
  simp only [hsplit]
  rw [if_neg (by simp)]
  simp only [List.getD, List.get?_cons_zero, List.get?_cons_succ,
    Option.getD_some, Option.getD_none, List.get?_nil]

theorem envStr_ne_nil (n : Nat) {hs : JStr}
    (hh : ∀ c ∈ hs, jsonSafeChar c) (now : Nat) :
    jsonStringify (envCtx n hs now) ≠ [] := by
  rw [jsonStringify_envCtx n hh now]
  simp

theorem encode_envelope_eq (now n : Nat) (hn : 993 ≤ n) :
    encode now (cs "a") (.num 1) (bigCtx n) =
      joinCols [cs "a", natToString now, cs "1",
        jsonStringify (envCtx n
          (generateIntegrityHash (jsonStringify (bigCtx n))) now),
        CURRENT_VERSION] := by
  have hesc : escColons (cs "a") = (cs "a" : JStr) := by decide
  have hval1 : encodeValue (JVal.num 1) 0 = (cs "1" : JStr) := by decide
  have hhs := hash_safe (jsonStringify (bigCtx n))
  have hX : (if jsTruthy (bigCtx n) && typeofObject (bigCtx n) then
      let ec := encodeValue (bigCtx n) 1
      if 1000 < ec.length then
        match jsonParseFull ec with
        | some d =>
          jsonStringify (.obj [(cs "data", d),
            (cs "_integrity", .str (generateIntegrityHash ec)),
            (cs "_ts", .num now)])
        | none => ec
      else ec
    else []) = jsonStringify (envCtx n
      (generateIntegrityHash (jsonStringify (bigCtx n))) now) := by
    simp only [show (jsTruthy (bigCtx n) && typeofObject (bigCtx n)) = true
      from rfl, if_true]
    rw [show encodeValue (bigCtx n) 1 = jsonStringify (bigCtx n) from rfl]
    rw [if_pos (by rw [length_stringify_bigCtx]; omega)]
    rw [jsonParseFull_bigCtx n]
    rfl
  unfold encode
  rw [if_neg (by decide), hval1]
  rw [if_neg (by rintro ⟨h1, -⟩; exact absurd h1 (by decide))]
  rw [hX, hesc]
  show (if (splitCols (joinCols (List.filter (fun p => !p.isEmpty)
      [cs "a", natToString now, cs "1",
        jsonStringify (envCtx n
          (generateIntegrityHash (jsonStringify (bigCtx n))) now),
        CURRENT_VERSION]))).length < 3 then []
    else joinCols (List.filter (fun p => !p.isEmpty)
      [cs "a", natToString now, cs "1",
        jsonStringify (envCtx n
          (generateIntegrityHash (jsonStringify (bigCtx n))) now),
        CURRENT_VERSION])) = _
  have hfil : [cs "a", natToString now, cs "1",
      jsonStringify (envCtx n
        (generateIntegrityHash (jsonStringify (bigCtx n))) now),
      CURRENT_VERSION].filter (fun p => !p.isEmpty) =
      [cs "a", natToString now, cs "1",
        jsonStringify (envCtx n
          (generateIntegrityHash (jsonStringify (bigCtx n))) now),
        CURRENT_VERSION] := by
    simp [List.filter_cons, List.isEmpty_iff, natToString_ne_nil now,
      envStr_ne_nil n hhs now, CURRENT_VERSION, cs]
  rw [hfil]
  have hsplit := @splitCols_five (cs "a") (natToString now) (cs "1")
    (jsonStringify (envCtx n
      (generateIntegrityHash (jsonStringify (bigCtx n))) now))
    CURRENT_VERSION (by decide)
    (partSafe_of_noColon (natToString_no_colon now)) (by decide)
    (partSafe_envStr n hhs (hash_no_colon _) now) (by decide)
  rw [hsplit]
  rw [if_neg (by simp)]

theorem decode_encode_envelope (now n : Nat) (hn : 993 ≤ n) :
    decode (encode now (cs "a") (.num 1) (bigCtx n)) =
      some ⟨cs "a", some now, .num 1,
        envCtx n (generateIntegrityHash (jsonStringify (bigCtx n))) now,
        CURRENT_VERSION⟩ := by
  have hhs := hash_safe (jsonStringify (bigCtx n))
  rw [encode_envelope_eq now n hn]
  rw [decode_five_generic (by decide)
    (partSafe_of_noColon (natToString_no_colon now)) (by decide)
    (partSafe_envStr n hhs (hash_no_colon _) now) (by decide)]
  have hctx : decodeContextField (jsonStringify (envCtx n
      (generateIntegrityHash (jsonStringify (bigCtx n))) now)) =
      envCtx n (generateIntegrityHash (jsonStringify (bigCtx n))) now := by
    unfold decodeContextField
    rw [if_neg (by
      simpa [List.isEmpty_iff] using envStr_ne_nil n hhs now)]
    rw [jsonParseFull_envCtx n hhs now]
  rw [hctx, jsParseInt_natToString,
    show unescColons (cs "a") = (cs "a" : JStr) from by decide,
    show decodeValueField (unescColons (cs "1")) = JVal.num 1 from by decide]
  rfl

/-- C3: amended.  When the serialized context exceeds 1000 characters
(here `n + 8` for the `n`-filler context), `encode` substitutes the
envelope object — whose keys are `data`, `_integrity` and `_ts`, not
`integrity`/`generatedAt` — in place of the plain serialized context, but
`decode` does NOT unwrap it: the decoded record's context is the envelope
itself (the original context sits under its `data` key), never the
original context. -/
theorem c3_envelope_amended (now n : Nat) (hn : 993 ≤ n) :
    1000 < (encodeValue (bigCtx n) 1).length ∧
    encode now (cs "a") (.num 1) (bigCtx n) =
      joinCols [cs "a", natToString now, cs "1",
        jsonStringify (envCtx n
          (generateIntegrityHash (jsonStringify (bigCtx n))) now),
        CURRENT_VERSION] ∧
    (∃ r, decode (encode now (cs "a") (.num 1) (bigCtx n)) = some r ∧
      r.activity = cs "a" ∧ r.timestamp = some now ∧ r.value = .num 1 ∧
      r.context = envCtx n
        (generateIntegrityHash (jsonStringify (bigCtx n))) now ∧
      r.context ≠ bigCtx n) := by
  refine ⟨?_, encode_envelope_eq now n hn, ?_⟩
  · rw [show encodeValue (bigCtx n) 1 = jsonStringify (bigCtx n) from rfl,
      length_stringify_bigCtx]
    omega
  · refine ⟨_, decode_encode_envelope now n hn, rfl, rfl, rfl, rfl, ?_⟩
    simp [envCtx, bigCtx]

/-- Witness instantiating `c3_envelope_amended` at the smallest
over-threshold filler (993 characters, serialized length 1001). -/
theorem c3_witness :
    1000 < (encodeValue (bigCtx 993) 1).length ∧
    encode 5 (cs "a") (.num 1) (bigCtx 993) =
      joinCols [cs "a", natToString 5, cs "1",
        jsonStringify (envCtx 993
          (generateIntegrityHash (jsonStringify (bigCtx 993))) 5),
        CURRENT_VERSION] ∧
    (∃ r, decode (encode 5 (cs "a") (.num 1) (bigCtx 993)) = some r ∧
      r.activity = cs "a" ∧ r.timestamp = some 5 ∧ r.value = .num 1 ∧
      r.context = envCtx 993
        (generateIntegrityHash (jsonStringify (bigCtx 993))) 5 ∧
      r.context ≠ bigCtx 993) :=
  c3_envelope_amended 5 993 (by decide)

/-- C3 counterexample: for an oversized context the decoded record's
context is the integrity envelope (keys `data`, `_integrity`, `_ts`),
not the original context — decode performs no unwrapping. -/
theorem c3_counterexample :
    ∃ r, decode (encode 7 (cs "a") (.num 1) (bigCtx 1000)) = some r ∧
      r.context = envCtx 1000
        (generateIntegrityHash (jsonStringify (bigCtx 1000))) 7 ∧
      r.context ≠ bigCtx 1000 := by
  refine ⟨_, decode_encode_envelope 7 1000 (by norm_num), rfl, ?_⟩
  simp [envCtx, bigCtx]
